import Mathlib

/-!
Verification of the options-analytics core (`analytics.py`): Black-Scholes
pricing, Greeks and implied-volatility inversion, and the Breeden-Litzenberger
risk-neutral density extraction with its distribution query layer.

Conventions of the embedding:
* Python floats are modelled as real numbers (`ℝ`); input option-chain data,
  which only ever meets rational arithmetic, is modelled over `ℚ`.
* `numpy` arrays are modelled as `List`s; elementwise array operations are
  index-based maps, matching numpy broadcasting semantics.
* A pandas value that may be `NaN` (a missing bid/ask) is an `Option ℚ`;
  a whole column that may be absent is a `Bool` flag on the frame.
* Fallible code (`raise` in Python) returns `Except String`.
* External scipy routines (`norm.cdf`, `brentq`, the spline fit,
  `gaussian_filter1d`) are modelled from their documented mathematical
  behaviour; each such definition carries a comment saying so.
-/

open MeasureTheory Set

noncomputable section

namespace Analytics

/-! ### Standard normal distribution (`scipy.stats.norm`) -/

/-- Modelled from the spec: `scipy.stats.norm.cdf`, the standard normal
cumulative distribution function `Φ(x) = (∫_{-∞}^x e^{-t²/2} dt) / √(2π)`. -/
def normCdf (x : ℝ) : ℝ :=
  (∫ t in Iic x, Real.exp (-t ^ 2 / 2)) / Real.sqrt (2 * Real.pi)

/-- Modelled from the spec: `scipy.stats.norm.pdf`, the standard normal density
`φ(x) = e^{-x²/2} / √(2π)`. -/
def normPdf (x : ℝ) : ℝ :=
  Real.exp (-x ^ 2 / 2) / Real.sqrt (2 * Real.pi)

lemma gauss_fun_eq :
    (fun t : ℝ => Real.exp (-t ^ 2 / 2)) = fun t : ℝ => Real.exp (-(1 / 2 : ℝ) * t ^ 2) := by
  funext t; congr 1; ring

lemma integrable_gauss : Integrable (fun t : ℝ => Real.exp (-t ^ 2 / 2)) := by
  rw [gauss_fun_eq]
  exact integrable_exp_neg_mul_sq (by norm_num)

lemma integral_gauss_total :
    (∫ t : ℝ, Real.exp (-t ^ 2 / 2)) = Real.sqrt (2 * Real.pi) := by
  rw [gauss_fun_eq, integral_gaussian]
  congr 1
  rw [div_div_eq_mul_div]
  ring

lemma sqrt_two_pi_pos : 0 < Real.sqrt (2 * Real.pi) :=
  Real.sqrt_pos.mpr (by positivity)

lemma normPdf_pos (x : ℝ) : 0 < normPdf x :=
  div_pos (Real.exp_pos _) sqrt_two_pi_pos

lemma normCdf_add_neg (x : ℝ) : normCdf x + normCdf (-x) = 1 := by
  have hneg : (∫ t in Iic (-x), Real.exp (-t ^ 2 / 2))
      = ∫ t in Ioi x, Real.exp (-t ^ 2 / 2) := by
    have h := integral_comp_neg_Iic (-x) (fun t : ℝ => Real.exp (-t ^ 2 / 2))
    simp only [neg_neg] at h
    rw [← h]
    congr 1
    funext t
    congr 1
    ring
  have hsplit := intervalIntegral.integral_Iic_add_Ioi
    (b := x) (f := fun t : ℝ => Real.exp (-t ^ 2 / 2)) (μ := volume)
    integrable_gauss.integrableOn integrable_gauss.integrableOn
  rw [normCdf, normCdf, hneg, div_add_div_same, hsplit, integral_gauss_total,
    div_self (ne_of_gt sqrt_two_pi_pos)]

lemma normCdf_nonneg (x : ℝ) : 0 ≤ normCdf x :=
  div_nonneg (setIntegral_nonneg measurableSet_Iic fun t _ => (Real.exp_pos _).le)
    (Real.sqrt_nonneg _)

lemma normCdf_le_one (x : ℝ) : normCdf x ≤ 1 := by
  rw [normCdf, div_le_one sqrt_two_pi_pos, ← integral_gauss_total]
  exact setIntegral_le_integral integrable_gauss
    (Filter.Eventually.of_forall fun t => (Real.exp_pos _).le)

/-! ### `BlackScholes` (pricing, Greeks, implied volatility) -/

/-- `BlackScholes.d1` from `analytics.py`. -/
def d1 (S K T r sigma : ℝ) : ℝ :=
  if T ≤ 0 ∨ sigma ≤ 0 then 0
  else (Real.log (S / K) + (r + 0.5 * sigma ^ 2) * T) / (sigma * Real.sqrt T)

/-- `BlackScholes.d2` from `analytics.py`. -/
def d2 (S K T r sigma : ℝ) : ℝ :=
  if T ≤ 0 ∨ sigma ≤ 0 then 0
  else d1 S K T r sigma - sigma * Real.sqrt T

/-- `BlackScholes.call_price` from `analytics.py`. -/
def call_price (S K T r sigma : ℝ) : ℝ :=
  if T ≤ 0 then max 0 (S - K)
  else S * normCdf (d1 S K T r sigma)
    - K * Real.exp (-r * T) * normCdf (d2 S K T r sigma)

/-- `BlackScholes.put_price` from `analytics.py`. -/
def put_price (S K T r sigma : ℝ) : ℝ :=
  if T ≤ 0 then max 0 (K - S)
  else K * Real.exp (-r * T) * normCdf (-d2 S K T r sigma)
    - S * normCdf (-d1 S K T r sigma)

/-- `OptionGreeks` dataclass from `analytics.py`. -/
structure OptionGreeks where
  delta : ℝ
  gamma : ℝ
  theta : ℝ
  vega : ℝ
  rho : ℝ

/-- The `option_type` string argument (`'call'` / `'put'`). -/
inductive OptionType
  | call
  | put
deriving DecidableEq

/-- `BlackScholes.greeks` from `analytics.py`. -/
def greeks (S K T r sigma : ℝ) (option_type : OptionType) : OptionGreeks :=
  if T ≤ 0 ∨ sigma ≤ 0 then ⟨0, 0, 0, 0, 0⟩
  else
    { delta :=
        match option_type with
        | .call => normCdf (d1 S K T r sigma)
        | .put => normCdf (d1 S K T r sigma) - 1
      gamma := normPdf (d1 S K T r sigma) / (S * sigma * Real.sqrt T)
      theta :=
        match option_type with
        | .call =>
            (-S * normPdf (d1 S K T r sigma) * sigma / (2 * Real.sqrt T)
              - r * K * Real.exp (-r * T) * normCdf (d2 S K T r sigma)) / 365
        | .put =>
            (-S * normPdf (d1 S K T r sigma) * sigma / (2 * Real.sqrt T)
              + r * K * Real.exp (-r * T) * normCdf (-d2 S K T r sigma)) / 365
      vega := S * normPdf (d1 S K T r sigma) * Real.sqrt T / 100
      rho :=
        match option_type with
        | .call => K * T * Real.exp (-r * T) * normCdf (d2 S K T r sigma) / 100
        | .put => -K * T * Real.exp (-r * T) * normCdf (-d2 S K T r sigma) / 100 }

/-- The `price_func` selection in `BlackScholes.implied_volatility`. -/
def bs_price (S K T r sigma : ℝ) : OptionType → ℝ
  | .call => call_price S K T r sigma
  | .put => put_price S K T r sigma

/-- Modelled from the spec: `scipy.optimize.brentq` is a bracketing root-finder
of the bisection family (tolerance `xtol = 1e-6` on volatility).  We model it as
iterated interval bisection; 30 steps shrink the initial bracket `[0.01, 5]`
below the 1e-6 tolerance. -/
def bisect (f : ℝ → ℝ) : ℕ → ℝ → ℝ → ℝ × ℝ
  | 0, a, b => (a, b)
  | n + 1, a, b =>
    if f ((a + b) / 2) ≤ 0 then bisect f n ((a + b) / 2) b
    else bisect f n a ((a + b) / 2)

/-- Modelled from the spec: the root returned by the bracketing root-finder,
taken as the midpoint of the final bisection bracket. -/
def brentq (f : ℝ → ℝ) (a b : ℝ) : ℝ :=
  ((bisect f 30 a b).1 + (bisect f 30 a b).2) / 2

/-- `BlackScholes.implied_volatility` from `analytics.py`: `none` models the
`np.nan` returned when `brentq` cannot bracket a root on `[0.01, 5.0]`. -/
def implied_volatility (price S K T r : ℝ) (option_type : OptionType) : Option ℝ :=
  if T ≤ 0 then some 0
  else if 0 < (bs_price S K T r 0.01 option_type - price)
      * (bs_price S K T r 5.0 option_type - price) then none
  else some (brentq (fun sigma => bs_price S K T r sigma option_type - price) 0.01 5.0)

/-! ### Claim C3: put-call parity -/

/-- C3.  For every spot `S > 0`, strike `K > 0`, time `T > 0`, rate `r` and
volatility `sigma > 0`, the call price minus the put price equals
`S - K·e^(-rT)` (put-call parity) — here proved exactly, which is stronger
than "within numerical tolerance". -/
theorem put_call_parity (S K T r sigma : ℝ) (hS : 0 < S) (hK : 0 < K)
    (hT : 0 < T) (hsigma : 0 < sigma) :
    call_price S K T r sigma - put_price S K T r sigma = S - K * Real.exp (-r * T) := by
  rw [call_price, put_price, if_neg (not_le.mpr hT), if_neg (not_le.mpr hT)]
  have h1 : normCdf (-d1 S K T r sigma) = 1 - normCdf (d1 S K T r sigma) := by
    linarith [normCdf_add_neg (d1 S K T r sigma)]
  have h2 : normCdf (-d2 S K T r sigma) = 1 - normCdf (d2 S K T r sigma) := by
    linarith [normCdf_add_neg (d2 S K T r sigma)]
  rw [h1, h2]
  ring

/-- Witness for C3 at the concrete input `S = K = T = sigma = 1`, `r = 0`. -/
theorem put_call_parity_witness :
    (0:ℝ) < 1 ∧ call_price 1 1 1 0 1 - put_price 1 1 1 0 1 = 1 - 1 * Real.exp (-0 * 1) :=
  ⟨by norm_num,
   put_call_parity 1 1 1 0 1 (by norm_num) (by norm_num) (by norm_num) (by norm_num)⟩

/-! ### Claim C4: degenerate-input policy -/

/-- C4.  For `T ≤ 0` the prices are the intrinsic values `max 0 (S-K)` /
`max 0 (K-S)` with no error raised, and for `T ≤ 0` or `sigma ≤ 0` the Greeks
are identically zero. -/
theorem degenerate_input_policy (S K T r sigma : ℝ) (option_type : OptionType) :
    (T ≤ 0 → call_price S K T r sigma = max 0 (S - K)
      ∧ put_price S K T r sigma = max 0 (K - S))
    ∧ (T ≤ 0 ∨ sigma ≤ 0 → greeks S K T r sigma option_type = ⟨0, 0, 0, 0, 0⟩) := by
  refine ⟨fun h => ⟨?_, ?_⟩, fun h => ?_⟩
  · rw [call_price, if_pos h]
  · rw [put_price, if_pos h]
  · rw [greeks.eq_def, if_pos h]

/-- Witness for C4 at the concrete input `S = 3`, `K = 1`, `T = 0`. -/
theorem degenerate_input_policy_witness :
    call_price 3 1 0 0 1 = max 0 (3 - 1) ∧ put_price 3 1 0 0 1 = max 0 (1 - 3)
      ∧ greeks 3 1 0 0 1 .call = ⟨0, 0, 0, 0, 0⟩ := by
  obtain ⟨h1, h2⟩ := degenerate_input_policy 3 1 0 0 1 .call
  exact ⟨(h1 le_rfl).1, (h1 le_rfl).2, h2 (Or.inl le_rfl)⟩

/-! ### Claim C6: Greek bounds -/

/-- C6.  For `S, K, T, sigma > 0` and any `r`: call delta lies in `[0, 1]`,
put delta lies in `[-1, 0]`, and gamma and vega are non-negative (both sides). -/
theorem greeks_bounds (S K T r sigma : ℝ) (hS : 0 < S) (hK : 0 < K)
    (hT : 0 < T) (hsigma : 0 < sigma) :
    0 ≤ (greeks S K T r sigma .call).delta ∧ (greeks S K T r sigma .call).delta ≤ 1
    ∧ -1 ≤ (greeks S K T r sigma .put).delta ∧ (greeks S K T r sigma .put).delta ≤ 0
    ∧ 0 ≤ (greeks S K T r sigma .call).gamma ∧ 0 ≤ (greeks S K T r sigma .put).gamma
    ∧ 0 ≤ (greeks S K T r sigma .call).vega ∧ 0 ≤ (greeks S K T r sigma .put).vega := by
  have hcond : ¬(T ≤ 0 ∨ sigma ≤ 0) := by push_neg; exact ⟨hT, hsigma⟩
  simp only [greeks, if_neg hcond]
  have hΦ0 := normCdf_nonneg (d1 S K T r sigma)
  have hΦ1 := normCdf_le_one (d1 S K T r sigma)
  have hφ := (normPdf_pos (d1 S K T r sigma)).le
  have hden : (0:ℝ) ≤ S * sigma * Real.sqrt T := by positivity
  refine ⟨hΦ0, hΦ1, by linarith, by linarith, ?_, ?_, ?_, ?_⟩
  · exact div_nonneg hφ hden
  · exact div_nonneg hφ hden
  · have : (0:ℝ) ≤ S * normPdf (d1 S K T r sigma) * Real.sqrt T := by
      have := Real.sqrt_nonneg T
      nlinarith
    linarith [div_nonneg this (by norm_num : (0:ℝ) ≤ 100)]
  · have : (0:ℝ) ≤ S * normPdf (d1 S K T r sigma) * Real.sqrt T := by
      have := Real.sqrt_nonneg T
      nlinarith
    linarith [div_nonneg this (by norm_num : (0:ℝ) ≤ 100)]

/-- Witness for C6 at the concrete input `S = K = T = sigma = 1`, `r = 0`. -/
theorem greeks_bounds_witness :
    (0:ℝ) < 1 ∧ 0 ≤ (greeks 1 1 1 0 1 .call).delta :=
  ⟨by norm_num,
   (greeks_bounds 1 1 1 0 1 (by norm_num) (by norm_num) (by norm_num) (by norm_num)).1⟩

/-! ### Claim C9: implied volatility at non-positive expiry -/

/-- C9.  For every market price, spot, strike and rate, `implied_volatility`
with `T ≤ 0` returns exactly `0.0` (`some 0`, not the `none`/NaN sentinel and
not an error), without reaching the root-finder. -/
theorem implied_volatility_expired (price S K r : ℝ) (T : ℝ)
    (option_type : OptionType) (hT : T ≤ 0) :
    implied_volatility price S K T r option_type = some 0 := by
  rw [implied_volatility, if_pos hT]

/-- Witness for C9 at the concrete input `T = 0`. -/
theorem implied_volatility_expired_witness :
    implied_volatility 5 100 100 0 0 .call = some 0 :=
  implied_volatility_expired 5 100 100 0 0 .call le_rfl

/-! ### Claim C5: price / implied-volatility round trip

The Black-Scholes price is strictly increasing in volatility (its derivative is
the vega `S·φ(d1)·√T > 0`), so on the bracket `[0.01, 5]` the objective changes
sign at the unique root `sigma` and bisection converges to it. -/

lemma normCdf_eq_const_add (y : ℝ) :
    normCdf y = (∫ t in Iic (0:ℝ), Real.exp (-t ^ 2 / 2)) / Real.sqrt (2 * Real.pi)
      + (∫ t in (0:ℝ)..y, Real.exp (-t ^ 2 / 2)) / Real.sqrt (2 * Real.pi) := by
  rw [normCdf, ← intervalIntegral.integral_Iic_sub_Iic
    (integrable_gauss.integrableOn) (integrable_gauss.integrableOn)]
  ring

lemma hasDerivAt_normCdf (x : ℝ) : HasDerivAt normCdf (normPdf x) x := by
  have hcont : Continuous fun t : ℝ => Real.exp (-t ^ 2 / 2) := by continuity
  have hd : HasDerivAt (fun y : ℝ => ∫ t in (0:ℝ)..y, Real.exp (-t ^ 2 / 2))
      (Real.exp (-x ^ 2 / 2)) x :=
    intervalIntegral.integral_hasDerivAt_right integrable_gauss.intervalIntegrable
      (hcont.stronglyMeasurableAtFilter _ _) hcont.continuousAt
  have h := (hd.div_const (Real.sqrt (2 * Real.pi))).const_add
    ((∫ t in Iic (0:ℝ), Real.exp (-t ^ 2 / 2)) / Real.sqrt (2 * Real.pi))
  have heq : normCdf = fun y =>
      (∫ t in Iic (0:ℝ), Real.exp (-t ^ 2 / 2)) / Real.sqrt (2 * Real.pi)
        + (∫ t in (0:ℝ)..y, Real.exp (-t ^ 2 / 2)) / Real.sqrt (2 * Real.pi) :=
    funext normCdf_eq_const_add
  rw [normPdf, heq]
  exact h

section IVAnalysis

variable {S K T r : ℝ}

lemma d1_formula (hT : 0 < T) {s : ℝ} (hs : 0 < s) :
    d1 S K T r s
      = (Real.log (S / K) + r * T) / Real.sqrt T / s + Real.sqrt T / 2 * s := by
  rw [d1, if_neg (by push_neg; exact ⟨hT, hs⟩)]
  have hu : 0 < Real.sqrt T := Real.sqrt_pos.mpr hT
  have hu2 : Real.sqrt T * Real.sqrt T = T := Real.mul_self_sqrt hT.le
  field_simp
  linear_combination (-(s ^ 3) * Real.sqrt T) * hu2

lemma d2_eq_d1_sub (hT : 0 < T) {s : ℝ} (hs : 0 < s) :
    d2 S K T r s = d1 S K T r s - s * Real.sqrt T := by
  rw [d2, if_neg (by push_neg; exact ⟨hT, hs⟩)]

lemma hasDerivAt_d1_sigma (hT : 0 < T) {s : ℝ} (hs : 0 < s) :
    HasDerivAt (fun x => d1 S K T r x)
      ((Real.log (S / K) + r * T) / Real.sqrt T * (-(s ^ 2)⁻¹) + Real.sqrt T / 2) s := by
  have h1 : HasDerivAt
      (fun x : ℝ => (Real.log (S / K) + r * T) / Real.sqrt T / x + Real.sqrt T / 2 * x)
      ((Real.log (S / K) + r * T) / Real.sqrt T * (-(s ^ 2)⁻¹) + Real.sqrt T / 2) s := by
    have hinv : HasDerivAt (fun x : ℝ => (Real.log (S / K) + r * T) / Real.sqrt T / x)
        ((Real.log (S / K) + r * T) / Real.sqrt T * (-(s ^ 2)⁻¹)) s := by
      simpa [div_eq_mul_inv] using
        (hasDerivAt_inv (ne_of_gt hs)).const_mul ((Real.log (S / K) + r * T) / Real.sqrt T)
    have hlin : HasDerivAt (fun x : ℝ => Real.sqrt T / 2 * x) (Real.sqrt T / 2) s := by
      simpa using (hasDerivAt_id s).const_mul (Real.sqrt T / 2)
    exact hinv.add hlin
  apply h1.congr_of_eventuallyEq
  filter_upwards [Ioi_mem_nhds hs] with x hx
  exact d1_formula hT hx

lemma hasDerivAt_d2_sigma (hT : 0 < T) {s : ℝ} (hs : 0 < s) :
    HasDerivAt (fun x => d2 S K T r x)
      ((Real.log (S / K) + r * T) / Real.sqrt T * (-(s ^ 2)⁻¹) + Real.sqrt T / 2
        - Real.sqrt T) s := by
  have h := (hasDerivAt_d1_sigma (S := S) (K := K) (r := r) hT hs).sub
    ((hasDerivAt_id s).mul_const (Real.sqrt T))
  simp only [one_mul] at h
  apply h.congr_of_eventuallyEq
  filter_upwards [Ioi_mem_nhds hs] with x hx
  rw [d2_eq_d1_sub hT hx]
  simp

lemma pdf_identity (hS : 0 < S) (hK : 0 < K) (hT : 0 < T) {s : ℝ} (hs : 0 < s) :
    K * Real.exp (-r * T) * normPdf (d2 S K T r s) = S * normPdf (d1 S K T r s) := by
  have hcond : ¬(T ≤ 0 ∨ s ≤ 0) := by push_neg; exact ⟨hT, hs⟩
  have hd2 : d2 S K T r s = d1 S K T r s - s * Real.sqrt T := by rw [d2, if_neg hcond]
  have hst : s * Real.sqrt T ≠ 0 :=
    ne_of_gt (mul_pos hs (Real.sqrt_pos.mpr hT))
  have hd1m : d1 S K T r s * (s * Real.sqrt T)
      = Real.log (S / K) + (r + 0.5 * s ^ 2) * T := by
    rw [d1, if_neg hcond, div_mul_cancel₀ _ hst]
  have hsq : (s * Real.sqrt T) ^ 2 = s ^ 2 * T := by
    rw [mul_pow, Real.sq_sqrt hT.le]
  have key : -r * T + -(d1 S K T r s - s * Real.sqrt T) ^ 2 / 2
      = Real.log (S / K) + -(d1 S K T r s) ^ 2 / 2 := by
    have expand : (d1 S K T r s - s * Real.sqrt T) ^ 2
        = (d1 S K T r s) ^ 2 - 2 * (d1 S K T r s * (s * Real.sqrt T))
          + (s * Real.sqrt T) ^ 2 := by ring
    rw [expand, hd1m, hsq]
    ring
  rw [normPdf, normPdf, hd2, mul_div_assoc', mul_div_assoc']
  congr 1
  rw [mul_assoc, ← Real.exp_add, key, Real.exp_add, Real.exp_log (div_pos hS hK)]
  field_simp

lemma hasDerivAt_call_sigma (hS : 0 < S) (hK : 0 < K) (hT : 0 < T)
    {s : ℝ} (hs : 0 < s) :
    HasDerivAt (fun x => call_price S K T r x)
      (S * normPdf (d1 S K T r s) * Real.sqrt T) s := by
  have h1 := hasDerivAt_d1_sigma (S := S) (K := K) (r := r) hT hs
  have h2 := hasDerivAt_d2_sigma (S := S) (K := K) (r := r) hT hs
  have hc1 : HasDerivAt (fun x => normCdf (d1 S K T r x))
      (normPdf (d1 S K T r s)
        * ((Real.log (S / K) + r * T) / Real.sqrt T * (-(s ^ 2)⁻¹) + Real.sqrt T / 2)) s :=
    (hasDerivAt_normCdf (d1 S K T r s)).comp s h1
  have hc2 : HasDerivAt (fun x => normCdf (d2 S K T r x))
      (normPdf (d2 S K T r s)
        * ((Real.log (S / K) + r * T) / Real.sqrt T * (-(s ^ 2)⁻¹) + Real.sqrt T / 2
          - Real.sqrt T)) s :=
    (hasDerivAt_normCdf (d2 S K T r s)).comp s h2
  have hF := (hc1.const_mul S).sub (hc2.const_mul (K * Real.exp (-r * T)))
  have hval : S * (normPdf (d1 S K T r s)
        * ((Real.log (S / K) + r * T) / Real.sqrt T * (-(s ^ 2)⁻¹) + Real.sqrt T / 2))
      - K * Real.exp (-r * T) * (normPdf (d2 S K T r s)
        * ((Real.log (S / K) + r * T) / Real.sqrt T * (-(s ^ 2)⁻¹) + Real.sqrt T / 2
          - Real.sqrt T))
      = S * normPdf (d1 S K T r s) * Real.sqrt T := by
    have hid := pdf_identity (r := r) hS hK hT hs
    linear_combination (Real.sqrt T
      - ((Real.log (S / K) + r * T) / Real.sqrt T * (-(s ^ 2)⁻¹) + Real.sqrt T / 2)) * hid
  rw [← hval]
  apply hF.congr_of_eventuallyEq
  filter_upwards [Ioi_mem_nhds hs] with x _
  rw [call_price, if_neg (not_le.mpr hT)]

lemma call_strictMonoOn (hS : 0 < S) (hK : 0 < K) (hT : 0 < T) :
    StrictMonoOn (fun x => call_price S K T r x) (Ioi 0) := by
  apply strictMonoOn_of_deriv_pos (convex_Ioi 0)
  · intro x hx
    exact (hasDerivAt_call_sigma hS hK hT hx).continuousAt.continuousWithinAt
  · intro x hx
    rw [interior_Ioi] at hx
    rw [(hasDerivAt_call_sigma hS hK hT hx).deriv]
    exact mul_pos (mul_pos hS (normPdf_pos _)) (Real.sqrt_pos.mpr hT)

lemma put_strictMonoOn (hS : 0 < S) (hK : 0 < K) (hT : 0 < T) :
    StrictMonoOn (fun x => put_price S K T r x) (Ioi 0) := by
  intro a ha b hb hab
  have hpa := put_call_parity S K T r a hS hK hT ha
  have hpb := put_call_parity S K T r b hS hK hT hb
  have hc := call_strictMonoOn (r := r) hS hK hT ha hb hab
  simp only at hc ⊢
  linarith

lemma bs_price_strictMonoOn (hS : 0 < S) (hK : 0 < K) (hT : 0 < T)
    (option_type : OptionType) :
    StrictMonoOn (fun x => bs_price S K T r x option_type) (Ioi 0) := by
  cases option_type
  · exact call_strictMonoOn hS hK hT
  · exact put_strictMonoOn hS hK hT

end IVAnalysis

lemma bisect_width (f : ℝ → ℝ) :
    ∀ (n : ℕ) (a b : ℝ), (bisect f n a b).2 - (bisect f n a b).1 = (b - a) / 2 ^ n := by
  intro n
  induction n with
  | zero => intro a b; simp [bisect]
  | succ n ih =>
    intro a b
    rw [bisect]
    split
    · rw [ih]
      field_simp
      ring
    · rw [ih]
      field_simp
      ring

lemma bisect_bracket (f : ℝ → ℝ) (hf : StrictMonoOn f (Ioi 0)) {rt : ℝ}
    (hrt : f rt = 0) :
    ∀ (n : ℕ) (a b : ℝ), 0 < a → a ≤ rt → rt ≤ b → f a ≤ 0 → 0 ≤ f b →
      0 < (bisect f n a b).1 ∧ (bisect f n a b).1 ≤ rt ∧ rt ≤ (bisect f n a b).2 := by
  intro n
  induction n with
  | zero => intro a b ha h1 h2 _ _; exact ⟨ha, h1, h2⟩
  | succ n ih =>
    intro a b ha h1 h2 hfa hfb
    have hab : a ≤ b := le_trans h1 h2
    have hm : 0 < (a + b) / 2 := by linarith
    have hrtpos : 0 < rt := lt_of_lt_of_le ha h1
    rw [bisect]
    split
    · rename_i hfm
      have hmrt : (a + b) / 2 ≤ rt := by
        by_contra hcon
        push_neg at hcon
        have := hf (mem_Ioi.mpr hrtpos) (mem_Ioi.mpr hm) hcon
        rw [hrt] at this
        linarith
      exact ih ((a + b) / 2) b hm hmrt h2 hfm hfb
    · rename_i hfm
      push_neg at hfm
      have hrtm : rt ≤ (a + b) / 2 := by
        by_contra hcon
        push_neg at hcon
        have := hf (mem_Ioi.mpr hm) (mem_Ioi.mpr hrtpos) hcon
        rw [hrt] at this
        linarith
      exact ih a ((a + b) / 2) ha h1 hrtm hfa hfm.le

/-- C5.  Round trip: for `S, K > 0`, `T > 0`, any `r` and `sigma ∈ (0.01, 5)`,
feeding the model price back into `implied_volatility` recovers `sigma` to
within `1e-4` (the root-finder is modelled as bisection, see `bisect`). -/
theorem implied_volatility_round_trip (S K T r sigma : ℝ) (option_type : OptionType)
    (hS : 0 < S) (hK : 0 < K) (hT : 0 < T) (hlo : 0.01 < sigma) (hhi : sigma < 5) :
    ∃ v, implied_volatility (bs_price S K T r sigma option_type) S K T r option_type
        = some v
      ∧ |v - sigma| ≤ 1e-4 := by
  have hσ : (0:ℝ) < sigma := lt_trans (by norm_num) hlo
  have h5 : (5.0:ℝ) = 5 := by norm_num
  have hmono := bs_price_strictMonoOn (r := r) hS hK hT option_type
  have hfa : bs_price S K T r 0.01 option_type - bs_price S K T r sigma option_type < 0 := by
    have := hmono (mem_Ioi.mpr (by norm_num)) (mem_Ioi.mpr hσ) hlo
    simp only at this
    linarith
  have hfb : 0 < bs_price S K T r 5 option_type - bs_price S K T r sigma option_type := by
    have := hmono (mem_Ioi.mpr hσ) (mem_Ioi.mpr (by norm_num)) hhi
    simp only at this
    linarith
  have hguard : ¬(0 < (bs_price S K T r 0.01 option_type
        - bs_price S K T r sigma option_type)
      * (bs_price S K T r 5.0 option_type - bs_price S K T r sigma option_type)) := by
    rw [h5]
    exact not_lt.mpr (mul_neg_of_neg_of_pos hfa hfb).le
  rw [implied_volatility, if_neg (not_le.mpr hT), if_neg hguard, h5]
  have hfmono : StrictMonoOn
      (fun x => bs_price S K T r x option_type - bs_price S K T r sigma option_type)
      (Ioi 0) := fun x hx y hy hxy => by
    have := hmono hx hy hxy
    simp only at this ⊢
    linarith
  have hfrt : (fun x => bs_price S K T r x option_type
      - bs_price S K T r sigma option_type) sigma = 0 := sub_self _
  obtain ⟨hpos, h1, h2⟩ := bisect_bracket _ hfmono hfrt 30 0.01 5
    (by norm_num) hlo.le hhi.le hfa.le hfb.le
  have hw := bisect_width
    (fun x => bs_price S K T r x option_type - bs_price S K T r sigma option_type) 30 0.01 5
  have hc : ((5:ℝ) - 0.01) / 2 ^ 30 ≤ 2e-4 := by norm_num
  refine ⟨_, rfl, ?_⟩
  rw [brentq, abs_le]
  constructor
  · linarith
  · linarith

/-- Witness for C5 at the concrete input `S = K = T = sigma = 1`, `r = 0`. -/
theorem implied_volatility_round_trip_witness :
    (0.01:ℝ) < 1 ∧ ∃ v,
      implied_volatility (bs_price 1 1 1 0 1 .call) 1 1 1 0 .call = some v
        ∧ |v - 1| ≤ 1e-4 :=
  ⟨by norm_num, implied_volatility_round_trip 1 1 1 0 1 .call
    (by norm_num) (by norm_num) (by norm_num) (by norm_num) (by norm_num)⟩

/-! ### Option-chain data model

Inputs to the density extractor are pandas DataFrames; a row is a `Quote`
(`bid`/`ask` are `Option ℚ`, `none` modelling a NaN entry), and a whole
DataFrame is a `Frame` whose `hasBid`/`hasAsk` flags model whether the
`bid`/`ask` columns exist at all.  The required columns `strike`, `lastPrice`
and `impliedVolatility` are structurally present (the source raises
"Missing required column" otherwise; the claims assume them present). -/

structure Quote where
  strike : ℚ
  lastPrice : ℚ
  bid : Option ℚ
  ask : Option ℚ
  impliedVolatility : ℚ
deriving DecidableEq

structure Frame where
  hasBid : Bool
  hasAsk : Bool
  rows : List Quote
deriving DecidableEq

/-- The bid/ask column synthesis at the top of `_clean_options`:
`df['bid'] = df['lastPrice'] * 0.95` and `df['ask'] = df['lastPrice'] * 1.05`
when the respective column is missing. -/
def synthBidAsk (f : Frame) : List Quote :=
  f.rows.map fun q =>
    { q with
      bid := if f.hasBid then q.bid else some (q.lastPrice * 0.95)
      ask := if f.hasAsk then q.ask else some (q.lastPrice * 1.05) }

/-- The row filter of `_clean_options`: positive last price, implied
volatility in (0, 5), strike strictly inside `(0.3·spot, 2.0·spot)`. -/
def keepQuote (current_price : ℚ) (q : Quote) : Bool :=
  decide (0 < q.lastPrice) && decide (0 < q.impliedVolatility)
    && decide (q.impliedVolatility < 5)
    && decide (current_price * 0.3 < q.strike) && decide (q.strike < current_price * 2.0)

/-- `BreedenLitzenberger._clean_options`: synthesize missing bid/ask columns,
drop invalid rows, sort by strike.  (The `'type'` column the source adds is
omitted: nothing downstream reads it.) -/
def clean_options (f : Frame) (current_price : ℚ) : List Quote :=
  ((synthBidAsk f).filter (keepQuote current_price)).mergeSort
    fun a b => decide (a.strike ≤ b.strike)

/-- The mid-price column built in `extract_density`:
`mid = (bid + ask)/2` (NaN-propagating), then `mid.fillna(lastPrice)`. -/
def midPrice (q : Quote) : ℚ :=
  match q.bid, q.ask with
  | some b, some a => (b + a) / 2
  | _, _ => q.lastPrice

/-! ### Claim C7: the cleaning step -/

/-- Counterexample to C7 as stated: the claim keeps quotes with strike inside
the closed range `[0.3·spot, 2.0·spot]`, but the source uses strict
comparisons, so a quote at strike exactly `0.3 × spot` (here `3 = 0.3 × 10`),
valid on every other count, is dropped. -/
theorem clean_options_boundary_counterexample :
    (0 < (1:ℚ) ∧ 0 < (1:ℚ) ∧ (1:ℚ) < 5
      ∧ (10:ℚ) * 0.3 ≤ 3 ∧ (3:ℚ) ≤ 10 * 2.0)
    ∧ clean_options ⟨true, true, [⟨3, 1, some 1, some 1, 1⟩]⟩ 10 = [] := by
  refine ⟨by norm_num, ?_⟩
  rw [clean_options, synthBidAsk]
  norm_num [keepQuote, List.filter, List.mergeSort_nil]

/-- C7 (amended).  The cleaning step keeps exactly the quotes with positive
last price, implied volatility strictly between 0 and 5, and strike
*strictly* between `0.3·spot` and `2.0·spot` (the boundary strikes are
dropped); absent bid/ask columns are synthesized as `lastPrice × 0.95` /
`lastPrice × 1.05`; and the mid price is `(bid+ask)/2`, falling back to the
last price when bid or ask is unavailable. -/
theorem clean_options_spec (f : Frame) (current_price : ℚ) (q : Quote) :
    (q ∈ clean_options f current_price ↔
      ∃ p ∈ f.rows,
        q = { p with
              bid := if f.hasBid then p.bid else some (p.lastPrice * 0.95)
              ask := if f.hasAsk then p.ask else some (p.lastPrice * 1.05) }
          ∧ 0 < p.lastPrice ∧ 0 < p.impliedVolatility ∧ p.impliedVolatility < 5
          ∧ current_price * 0.3 < p.strike ∧ p.strike < current_price * 2.0)
    ∧ (∀ b a, q.bid = some b → q.ask = some a → midPrice q = (b + a) / 2)
    ∧ ((q.bid = none ∨ q.ask = none) → midPrice q = q.lastPrice) := by
  refine ⟨?_, ?_, ?_⟩
  · rw [clean_options, List.mem_mergeSort, List.mem_filter, synthBidAsk]
    simp only [List.mem_map, keepQuote, Bool.and_eq_true, decide_eq_true_eq]
    constructor
    · rintro ⟨⟨p, hp, rfl⟩, ⟨⟨⟨⟨h1, h2⟩, h3⟩, h4⟩, h5⟩⟩
      exact ⟨p, hp, rfl, h1, h2, h3, h4, h5⟩
    · rintro ⟨p, hp, rfl, h1, h2, h3, h4, h5⟩
      exact ⟨⟨p, hp, rfl⟩, ⟨⟨⟨⟨h1, h2⟩, h3⟩, h4⟩, h5⟩⟩
  · intro b a hb ha
    rw [midPrice, hb, ha]
  · rintro (h | h)
    · rw [midPrice, h]
    · rw [midPrice, h]
      rcases q.bid with _ | b <;> rfl

/-- Witness for C7 (amended) at a concrete frame with both columns missing:
the surviving quote carries the synthesized bid/ask. -/
theorem clean_options_spec_witness :
    (⟨10, 2, some 1.9, some 2.1, 1⟩ : Quote)
      ∈ clean_options ⟨false, false, [⟨10, 2, none, none, 1⟩]⟩ 10 := by
  apply (clean_options_spec ⟨false, false, [⟨10, 2, none, none, 1⟩]⟩ 10 _).1.mpr
  refine ⟨⟨10, 2, none, none, 1⟩, by simp, ?_, by norm_num, by norm_num, by norm_num,
    by norm_num, by norm_num⟩
  norm_num

/-! ### `ImpliedDistribution` and its query layer -/

/-- `ImpliedDistribution` dataclass from `analytics.py`. -/
structure ImpliedDistribution where
  strikes : List ℝ
  density : List ℝ
  cdf : List ℝ
  expected_price : ℝ
  std_dev : ℝ
  skewness : ℝ
  kurtosis : ℝ
  atm_iv : ℝ
  days_to_exp : ℕ

/-- `np.diff`. -/
def npDiff (l : List ℝ) : List ℝ := (l.zip l.tail).map fun p => p.2 - p.1

/-- The `dk = np.append(np.diff(strikes), dk[-1])` array of
`probability_between`: forward differences, last width repeated.  (On a
single-point grid the source indexing would raise; the repeated width
defaults to 0 here — all claims assume at least two grid points.) -/
def dkArr (strikes : List ℝ) : List ℝ :=
  npDiff strikes ++ [(npDiff strikes).getLastD 0]

/-- `ImpliedDistribution.probability_between` from `analytics.py`: the masked
sum `np.sum(density[mask] * dk[mask])`, with an early `0.0` when no strike
falls in `[low, high]`. -/
def probability_between (d : ImpliedDistribution) (low high : ℝ) : ℝ :=
  if d.strikes.any fun k => decide (low ≤ k ∧ k ≤ high) then
    (((d.density.zip (dkArr d.strikes)).zip d.strikes).map fun x =>
      if low ≤ x.2 ∧ x.2 ≤ high then x.1.1 * x.1.2 else 0).sum
  else 0

/-- `ImpliedDistribution.probability_above` (`strikes[-1]` is the last grid
point). -/
def probability_above (d : ImpliedDistribution) (price : ℝ) : ℝ :=
  probability_between d price (d.strikes.getLastD 0)

/-- `ImpliedDistribution.probability_below` (`strikes[0]` is the first grid
point). -/
def probability_below (d : ImpliedDistribution) (price : ℝ) : ℝ :=
  probability_between d (d.strikes.headD 0) price

/-- The spec's formulation of `probabilityBetween`: the sum of
`density[i] × Δstrike[i]` over exactly those indices whose strike lies in
`[low, high]`, where `Δstrike[i]` is the forward difference and the last
interval reuses the prior width. -/
def probBetweenSpec (d : ImpliedDistribution) (low high : ℝ) : ℝ :=
  ∑ i ∈ Finset.range d.strikes.length,
    if low ≤ d.strikes.getD i 0 ∧ d.strikes.getD i 0 ≤ high then
      d.density.getD i 0 *
        (if i + 1 < d.strikes.length then
          d.strikes.getD (i + 1) 0 - d.strikes.getD i 0
         else
          d.strikes.getD (d.strikes.length - 1) 0
            - d.strikes.getD (d.strikes.length - 2) 0)
    else 0

/-! ### Claim C8: probability queries -/

lemma sum_map_eq_range_sum {α : Type} (g : α → ℝ) (d0 : α) :
    ∀ l : List α, (l.map g).sum = ∑ i ∈ Finset.range l.length, g (l.getD i d0) := by
  intro l
  induction l with
  | nil => simp
  | cons x xs ih =>
    rw [List.map_cons, List.sum_cons, ih, List.length_cons, Finset.sum_range_succ']
    simp [List.getD_cons_succ, List.getD_cons_zero, add_comm]

lemma getD_zip_pair {α β : Type} (da : α) (db : β) :
    ∀ (l : List α) (m : List β) (i : ℕ), i < l.length → i < m.length →
      (l.zip m).getD i (da, db) = (l.getD i da, m.getD i db) := by
  intro l
  induction l with
  | nil => intro m i h1 _; simp at h1
  | cons x xs ih =>
    intro m i h1 h2
    cases m with
    | nil => simp at h2
    | cons y ys =>
      cases i with
      | zero => simp
      | succ j =>
        simp only [List.zip_cons_cons, List.getD_cons_succ]
        exact ih ys j (by simpa using h1) (by simpa using h2)

lemma length_npDiff (l : List ℝ) : (npDiff l).length = l.length - 1 := by
  rw [npDiff, List.length_map, List.length_zip, List.length_tail]
  omega

lemma npDiff_getD (l : List ℝ) (i : ℕ) (h : i + 1 < l.length) :
    (npDiff l).getD i 0 = l.getD (i + 1) 0 - l.getD i 0 := by
  have hlen : i < (npDiff l).length := by rw [length_npDiff]; omega
  have htail : i < l.tail.length := by rw [List.length_tail]; omega
  rw [List.getD_eq_getElem _ _ hlen, List.getD_eq_getElem _ _ h,
    List.getD_eq_getElem _ _ (by omega : i < l.length)]
  simp [npDiff, List.getElem_zip, List.getElem_tail]

lemma length_dkArr (l : List ℝ) (h : 1 ≤ l.length) : (dkArr l).length = l.length := by
  rw [dkArr, List.length_append, length_npDiff]
  simp
  omega

lemma dkArr_getD_forward (l : List ℝ) (i : ℕ) (h : i + 1 < l.length) :
    (dkArr l).getD i 0 = l.getD (i + 1) 0 - l.getD i 0 := by
  have hi : i < (npDiff l).length := by rw [length_npDiff]; omega
  rw [dkArr, List.getD_append _ _ _ _ hi, npDiff_getD l i h]

lemma dkArr_getD_last (l : List ℝ) (h : 2 ≤ l.length) :
    (dkArr l).getD (l.length - 1) 0
      = l.getD (l.length - 1) 0 - l.getD (l.length - 2) 0 := by
  have hnd : (npDiff l).length = l.length - 1 := length_npDiff l
  rw [dkArr, List.getD_append_right _ _ _ _ (by omega : (npDiff l).length ≤ l.length - 1)]
  have hzero : l.length - 1 - (npDiff l).length = 0 := by omega
  rw [hzero, List.getD_cons_zero]
  have hlast : (npDiff l).getLastD 0 = (npDiff l).getD (l.length - 2) 0 := by
    rw [List.getLastD_eq_getLast?, List.getLast?_eq_getElem?, hnd]
    have h2 : l.length - 1 - 1 < (npDiff l).length := by omega
    rw [List.getElem?_eq_getElem h2, List.getD_eq_getElem _ _ (by omega)]
    simp only [Option.getD_some, show l.length - 1 - 1 = l.length - 2 from by omega]
  rw [hlast, npDiff_getD l (l.length - 2) (by omega)]
  congr 2
  omega

/-- C8.  `probability_between` equals the spec's index sum (density times
forward-difference width over exactly the strikes inside `[low, high]`),
it is 0 when no grid point falls in the range, and the above/below queries
are the wrappers against the grid's extreme bounds. -/
theorem probability_between_spec (d : ImpliedDistribution) (low high : ℝ)
    (hn : 2 ≤ d.strikes.length) (hlen : d.density.length = d.strikes.length)
    (hlh : low ≤ high) :
    probability_between d low high = probBetweenSpec d low high
    ∧ ((∀ k ∈ d.strikes, ¬(low ≤ k ∧ k ≤ high)) → probability_between d low high = 0)
    ∧ probability_above d low = probability_between d low (d.strikes.getLastD 0)
    ∧ probability_below d high = probability_between d (d.strikes.headD 0) high := by
  have hdk : (dkArr d.strikes).length = d.strikes.length :=
    length_dkArr _ (by omega)
  have hz1 : (d.density.zip (dkArr d.strikes)).length = d.strikes.length := by
    rw [List.length_zip, hlen, hdk]; omega
  have hz2 : ((d.density.zip (dkArr d.strikes)).zip d.strikes).length
      = d.strikes.length := by
    rw [List.length_zip, hz1]; omega
  refine ⟨?_, ?_, rfl, rfl⟩
  · rw [probability_between, probBetweenSpec]
    by_cases hmask : ∃ k ∈ d.strikes, low ≤ k ∧ k ≤ high
    · rw [if_pos (by simpa [List.any_eq_true] using hmask)]
      rw [sum_map_eq_range_sum _ ((0, 0), 0), hz2]
      apply Finset.sum_congr rfl
      intro i hi
      rw [Finset.mem_range] at hi
      rw [getD_zip_pair _ _ _ _ _ (by omega : i < (d.density.zip (dkArr d.strikes)).length) (by omega : i < d.strikes.length),
        getD_zip_pair _ _ _ _ _ (by omega : i < d.density.length) (by omega : i < (dkArr d.strikes).length)]
      by_cases hin : low ≤ d.strikes.getD i 0 ∧ d.strikes.getD i 0 ≤ high
      · rw [if_pos hin, if_pos hin]
        congr 1
        by_cases hfwd : i + 1 < d.strikes.length
        · rw [if_pos hfwd, dkArr_getD_forward _ _ hfwd]
        · have : i = d.strikes.length - 1 := by omega
          rw [if_neg hfwd, this, dkArr_getD_last _ hn]
      · rw [if_neg hin, if_neg hin]
    · rw [if_neg (by simpa [List.any_eq_true] using hmask)]
      push_neg at hmask
      symm
      apply Finset.sum_eq_zero
      intro i hi
      rw [Finset.mem_range] at hi
      have hmem : d.strikes.getD i 0 ∈ d.strikes := by
        rw [List.getD_eq_getElem _ _ hi]
        exact List.getElem_mem hi
      rw [if_neg]
      intro hcon
      exact absurd hcon.2 (not_le.mpr (hmask _ hmem hcon.1))
  · intro hnone
    rw [probability_between, if_neg]
    simp only [List.any_eq_true, decide_eq_true_eq]
    rintro ⟨k, hk, hcon⟩
    exact (hnone k hk) hcon

/-- Witness for C8 on a concrete three-point distribution. -/
theorem probability_between_spec_witness :
    (2 ≤ 3 ∧ (0:ℝ) ≤ 1)
    ∧ probability_between ⟨[0, 1, 2], [1, 1, 1], [0, 0, 0], 0, 0, 0, 0, 0, 0⟩ 0 1
      = probBetweenSpec ⟨[0, 1, 2], [1, 1, 1], [0, 0, 0], 0, 0, 0, 0, 0, 0⟩ 0 1 :=
  ⟨⟨by norm_num, by norm_num⟩,
   (probability_between_spec ⟨[0, 1, 2], [1, 1, 1], [0, 0, 0], 0, 0, 0, 0, 0, 0⟩ 0 1
     (by norm_num) (by norm_num) (by norm_num)).1⟩

/-! ### Claim C10: `expected_move` -/

/-- `np.gradient` with unit spacing: one-sided differences at the two ends,
central differences inside.  (`np.gradient` raises on arrays shorter than 2;
this total model returns junk there, and every use below assumes length ≥ 2.) -/
def npGradientUnit (l : List ℝ) : List ℝ :=
  (List.range l.length).map fun i =>
    if i = 0 then l.getD 1 0 - l.getD 0 0
    else if i = l.length - 1 then l.getD (l.length - 1) 0 - l.getD (l.length - 2) 0
    else (l.getD (i + 1) 0 - l.getD (i - 1) 0) / 2

/-- `np.gradient(f, dk)` with a scalar spacing `dk`. -/
def npGradient (l : List ℝ) (dk : ℝ) : List ℝ :=
  (npGradientUnit l).map (· / dk)

/-- `np.cumsum`. -/
def cumsum (l : List ℝ) : List ℝ :=
  (List.range l.length).map fun i => ∑ j ∈ Finset.range (i + 1), l.getD j 0

/-- `np.searchsorted` (default side `'left'`): the first index whose entry is
`≥ v`; `List.findIdx` returns the length when no entry qualifies, exactly as
searchsorted does. -/
def searchsorted (l : List ℝ) (v : ℝ) : ℕ :=
  l.findIdx fun x => decide (v ≤ x)

/-- `ImpliedDistribution.expected_move` from `analytics.py`: percentile lookup
on a freshly recomputed, gradient-weighted, renormalized cumulative sum. -/
def expected_move (d : ImpliedDistribution) (confidence : ℝ) : ℝ × ℝ :=
  let cs0 := cumsum (List.zipWith (· * ·) d.density (npGradientUnit d.strikes))
  let cs := cs0.map (· / cs0.getLastD 0)
  let lower_pct := (1 - confidence) / 2
  let upper_pct := 1 - lower_pct
  let lower_idx := max 0 (min (searchsorted cs lower_pct) (d.strikes.length - 1))
  let upper_idx := max 0 (min (searchsorted cs upper_pct) (d.strikes.length - 1))
  (d.strikes.getD lower_idx 0, d.strikes.getD upper_idx 0)

lemma findIdx_imp_le {α : Type} (p q : α → Bool)
    (himp : ∀ x, q x = true → p x = true) :
    ∀ l : List α, l.findIdx p ≤ l.findIdx q := by
  intro l
  induction l with
  | nil => simp
  | cons x xs ih =>
    rw [List.findIdx_cons, List.findIdx_cons]
    by_cases hp : p x
    · simp [hp]
    · have hq : q x = false := by
        rcases Bool.eq_false_or_eq_true (q x) with h | h
        · exact absurd (himp x h) hp
        · exact h
      simp only [hp, hq, cond_false]
      omega

lemma sorted_getD_mono {l : List ℝ} (hs : l.Sorted (· ≤ ·)) {i j : ℕ}
    (hij : i ≤ j) (hj : j < l.length) : l.getD i 0 ≤ l.getD j 0 := by
  rw [List.getD_eq_getElem _ _ (lt_of_le_of_lt hij hj), List.getD_eq_getElem _ _ hj]
  have := hs.rel_get_of_le
    (a := ⟨i, lt_of_le_of_lt hij hj⟩) (b := ⟨j, hj⟩) (by exact hij)
  simpa using this

/-- C10.  For a distribution with ascending strikes, non-negative density with
positive gradient-weighted total, and `confidence ∈ [0, 1]`, `expected_move`
returns a pair of elements of the strike grid (indices are clamped, so no
out-of-bounds access) with `lower ≤ upper`. -/
theorem expected_move_safe (d : ImpliedDistribution) (confidence : ℝ)
    (hn : 2 ≤ d.strikes.length) (hlen : d.density.length = d.strikes.length)
    (hsorted : d.strikes.Sorted (· ≤ ·))
    (hnonneg : ∀ x ∈ d.density, 0 ≤ x)
    (hpos : 0 < (List.zipWith (· * ·) d.density (npGradientUnit d.strikes)).sum)
    (hc0 : 0 ≤ confidence) (hc1 : confidence ≤ 1) :
    (expected_move d confidence).1 ∈ d.strikes
    ∧ (expected_move d confidence).2 ∈ d.strikes
    ∧ (expected_move d confidence).1 ≤ (expected_move d confidence).2 := by
  rw [expected_move]
  set cs0 := cumsum (List.zipWith (· * ·) d.density (npGradientUnit d.strikes)) with hcs0
  set cs := cs0.map (· / cs0.getLastD 0) with hcs
  set li := max 0 (min (searchsorted cs ((1 - confidence) / 2)) (d.strikes.length - 1))
    with hli
  set ui := max 0 (min (searchsorted cs (1 - (1 - confidence) / 2)) (d.strikes.length - 1))
    with hui
  have hliB : li < d.strikes.length := by
    rw [hli]
    simp only [Nat.max_eq_right (Nat.zero_le _)]
    omega
  have huiB : ui < d.strikes.length := by
    rw [hui]
    simp only [Nat.max_eq_right (Nat.zero_le _)]
    omega
  have hle : li ≤ ui := by
    rw [hli, hui]
    have hidx : searchsorted cs ((1 - confidence) / 2)
        ≤ searchsorted cs (1 - (1 - confidence) / 2) := by
      apply findIdx_imp_le
      intro x hx
      simp only [decide_eq_true_eq] at hx ⊢
      linarith
    omega
  refine ⟨?_, ?_, ?_⟩
  · rw [List.getD_eq_getElem _ _ hliB]
    exact List.getElem_mem hliB
  · rw [List.getD_eq_getElem _ _ huiB]
    exact List.getElem_mem huiB
  · exact sorted_getD_mono hsorted hle huiB

/-- Witness for C10 on a concrete two-point distribution. -/
theorem expected_move_safe_witness :
    ((2:ℕ) ≤ 2 ∧ (0:ℝ) ≤ 1 / 2
      ∧ 0 < (List.zipWith (· * ·) [(1:ℝ), 1] (npGradientUnit [0, 1])).sum)
    ∧ (expected_move ⟨[0, 1], [1, 1], [0, 0], 0, 0, 0, 0, 0, 0⟩ (1 / 2)).1
        ∈ ([0, 1] : List ℝ) := by
  have hgrad : 0 < (List.zipWith (· * ·) [(1:ℝ), 1] (npGradientUnit [0, 1])).sum := by
    norm_num [npGradientUnit, List.range_succ]
  refine ⟨⟨le_rfl, by norm_num, hgrad⟩, ?_⟩
  exact (expected_move_safe ⟨[0, 1], [1, 1], [0, 0], 0, 0, 0, 0, 0, 0⟩ (1 / 2)
    (by norm_num) (by norm_num)
    (by norm_num [List.sorted_cons])
    (by intro x hx; simp at hx; subst hx; norm_num)
    hgrad (by norm_num) (by norm_num)).1

/-! ### `BreedenLitzenberger`: density extraction pipeline -/

/-- `np.linspace a b n`: `n` uniformly spaced points including both
endpoints.  (The one formula also covers `n ≤ 1`, where the `ℚ` division by
zero is zero.) -/
def linspace (a b : ℚ) (n : ℕ) : List ℚ :=
  (List.range n).map fun (i : ℕ) => a + (i : ℚ) * (b - a) / ((n : ℚ) - 1)

/-- One row of the outer-merged calls/puts frame inside
`_combine_with_parity`. -/
structure CombRow where
  strike : ℚ
  call_mid : Option ℚ
  put_mid : Option ℚ
deriving DecidableEq

/-- The `pd.merge(..., on='strike', how='outer')`: both-sides rows where
strikes match (a cross product on duplicated strikes, as pandas produces),
then call-only rows, then put-only rows.  Row order differs from pandas, but
nothing downstream is order-sensitive before the explicit re-sort. -/
def mergeOuter (calls puts : List Quote) : List CombRow :=
  (calls.flatMap fun c =>
    let ms := puts.filter fun p => p.strike == c.strike
    if ms.isEmpty then [⟨c.strike, some (midPrice c), none⟩]
    else ms.map fun p => ⟨c.strike, some (midPrice c), some (midPrice p)⟩)
  ++ ((puts.filter fun p => calls.all fun c => !(c.strike == p.strike)).map
      fun p => ⟨p.strike, none, some (midPrice p)⟩)

/-- The combined call price of `_combine_with_parity`: the synthetic price
`C = P + S - K·e^(-rT)` where only a put exists, the call mid where only a
call exists, the average of mid and synthetic where both exist; `none`
mirrors the NaN that `dropna` removes. -/
def combinedPrice (S : ℚ) (disc : ℝ) (row : CombRow) : Option ℝ :=
  match row.call_mid, row.put_mid with
  | some c, some p => some (((c : ℝ) + ((p : ℝ) + (S : ℝ) - (row.strike : ℝ) * disc)) / 2)
  | some c, none => some (c : ℝ)
  | none, some p => some ((p : ℝ) + (S : ℝ) - (row.strike : ℝ) * disc)
  | none, none => none

/-- `_combine_with_parity`: merge on strike, price each row via parity, keep
only rows with a positive combined price.  Returns (strike, call price)
pairs. -/
def combine_with_parity (calls puts : List Quote) (S : ℚ) (disc : ℝ) :
    List (ℚ × ℝ) :=
  (mergeOuter calls puts).filterMap fun row =>
    (combinedPrice S disc row).bind fun cp =>
      if 0 < cp then some (row.strike, cp) else none

/-- `Series.idxmin` (pandas): the first row minimizing the key; `none`
exactly when the series is empty, where pandas raises
"attempt to get argmin of an empty sequence". -/
def idxminBy (key : Quote → ℚ) (l : List Quote) : Option Quote :=
  l.foldl (fun acc q =>
    match acc with
    | none => some q
    | some m => if key q < key m then some q else acc) none

/-- `BreedenLitzenberger._get_atm_iv`: the call IV nearest the spot, averaged
with the nearest put IV when any puts remain.  The call-side `idxmin` is
unguarded in the source, so an empty cleaned calls frame raises. -/
def get_atm_iv (calls puts : List Quote) (current_price : ℚ) : Except String ℚ :=
  match idxminBy (fun q => |q.strike - current_price|) calls with
  | none => .error "attempt to get argmin of an empty sequence"
  | some c =>
    match idxminBy (fun q => |q.strike - current_price|) puts with
    | some p => .ok ((c.impliedVolatility + p.impliedVolatility) / 2)
    | none => .ok c.impliedVolatility

/-- The sort plus `np.unique(..., return_index=True)` deduplication applied
to the combined rows before the spline fit: keep the first row of each
strike run of the strike-sorted list. -/
def dedupByStrike : List (ℚ × ℝ) → List (ℚ × ℝ)
  | [] => []
  | [x] => [x]
  | a :: b :: rest =>
    if a.1 = b.1 then dedupByStrike (a :: rest) else a :: dedupByStrike (b :: rest)
termination_by l => l.length

/-- scipy's `'reflect'` boundary index map
(`d c b a | a b c d | d c b a`), periodic with period `2n`. -/
def reflectIdx (n : ℕ) (j : ℤ) : ℕ :=
  (if j % (2 * n) < (n : ℤ) then j % (2 * n) else 2 * n - 1 - j % (2 * n)).toNat

/-- Modelled from the spec: `scipy.ndimage.gaussian_filter1d` with integer
`sigma` and default truncation 4.0 — a correlation with the normalized
Gaussian kernel `exp(-k²/(2σ²))`, `k ∈ [-4σ, 4σ]`, under `'reflect'`
boundary handling. -/
def gaussFilter1d (sigma : ℕ) (v : List ℝ) : List ℝ :=
  (List.range v.length).map fun (j : ℕ) =>
    (∑ i ∈ Finset.range (2 * (4 * sigma) + 1),
        Real.exp (-((i : ℝ) - (4 * sigma : ℕ)) ^ 2 / (2 * (sigma : ℝ) ^ 2))
          * v.getD (reflectIdx v.length ((j : ℤ) + ((i : ℤ) - (4 * sigma : ℕ)))) 0)
      / ∑ i ∈ Finset.range (2 * (4 * sigma) + 1),
          Real.exp (-((i : ℝ) - (4 * sigma : ℕ)) ^ 2 / (2 * (sigma : ℝ) ^ 2))

/-- `np.trapz(y, x)`. -/
def trapz : List ℝ → List ℝ → ℝ
  | y0 :: y1 :: ys, x0 :: x1 :: xs =>
    (x1 - x0) * (y0 + y1) / 2 + trapz (y1 :: ys) (x1 :: xs)
  | _, _ => 0

/-- `T = days_to_exp / 365.0`. -/
def bl_T (days_to_exp : ℕ) : ℝ := (days_to_exp : ℝ) / 365

/-- `discount = np.exp(-r * T)` (`r` is the extractor's risk-free rate). -/
def bl_disc (r : ℝ) (days_to_exp : ℕ) : ℝ := Real.exp (-r * bl_T days_to_exp)

/-- The cleaned and parity-combined (strike, call price) rows of
`extract_density`. -/
def bl_combined (calls puts : Frame) (current_price : ℚ) (days_to_exp : ℕ)
    (r : ℝ) : List (ℚ × ℝ) :=
  combine_with_parity (clean_options calls current_price)
    (clean_options puts current_price) current_price (bl_disc r days_to_exp)

/-- The lower end of the interpolation range:
`max(k_min - 0.1·k_range, current_price · 0.5)`. -/
def bl_kmin (calls puts : Frame) (current_price : ℚ) (days_to_exp : ℕ)
    (r : ℝ) : ℚ :=
  let ks := (bl_combined calls puts current_price days_to_exp r).map (·.1)
  let kmin0 := ks.foldl min (ks.headD 0)
  let kmax0 := ks.foldl max (ks.headD 0)
  max (kmin0 - 0.1 * (kmax0 - kmin0)) (current_price * 0.5)

/-- The upper end of the interpolation range: `k_max + 0.1·k_range`. -/
def bl_kmax (calls puts : Frame) (current_price : ℚ) (days_to_exp : ℕ)
    (r : ℝ) : ℚ :=
  let ks := (bl_combined calls puts current_price days_to_exp r).map (·.1)
  let kmin0 := ks.foldl min (ks.headD 0)
  let kmax0 := ks.foldl max (ks.headD 0)
  kmax0 + 0.1 * (kmax0 - kmin0)

/-- The uniform spacing of the interpolation grid. -/
def bl_step (calls puts : Frame) (current_price : ℚ) (days_to_exp : ℕ)
    (r : ℝ) (num_points : ℕ) : ℚ :=
  (bl_kmax calls puts current_price days_to_exp r
    - bl_kmin calls puts current_price days_to_exp r) / ((num_points : ℚ) - 1)

/-- The interpolation grid `strikes_interp`: `np.linspace` over the observed
strike range extended by 10% on both sides, the lower end clipped at
`0.5 × spot`. -/
def bl_grid (calls puts : Frame) (current_price : ℚ) (days_to_exp : ℕ)
    (r : ℝ) (num_points : ℕ) : List ℚ :=
  linspace (bl_kmin calls puts current_price days_to_exp r)
    (bl_kmax calls puts current_price days_to_exp r) num_points

/-- `dk = strikes_interp[1] - strikes_interp[0]` (defined for grids with at
least two points; the source indexing would raise otherwise). -/
def bl_dk (calls puts : Frame) (current_price : ℚ) (days_to_exp : ℕ)
    (r : ℝ) (num_points : ℕ) : ℝ :=
  ((bl_grid calls puts current_price days_to_exp r num_points).map
      (fun q : ℚ => (q : ℝ))).getD 1 0
    - ((bl_grid calls puts current_price days_to_exp r num_points).map
      (fun q : ℚ => (q : ℝ))).getD 0 0

/-- `sigma_smooth = max(1, int(num_points * 0.02))`. -/
def bl_sigma_smooth (num_points : ℕ) : ℕ := max 1 (num_points * 2 / 100)

/-- The spline-evaluated prices differentiated twice (`np.gradient` twice),
divided by the discount, Gaussian-smoothed and clipped non-negative — the
`density` array just before normalization.  `fit smoothing points` is the
smoothing-spline evaluator, modelled from the spec (`UnivariateSpline` with
the `CubicSpline` fallback: a total function of the deduplicated sorted
(strike, price) points). -/
def bl_clipped (fit : ℝ → List (ℚ × ℝ) → ℝ → ℝ) (calls puts : Frame)
    (current_price : ℚ) (days_to_exp : ℕ) (num_points : ℕ) (smoothing : ℝ)
    (r : ℝ) : List ℝ :=
  let gridR : List ℝ := (bl_grid calls puts current_price days_to_exp r num_points).map
    (fun q : ℚ => (q : ℝ))
  let pts := dedupByStrike
    ((bl_combined calls puts current_price days_to_exp r).mergeSort
      fun a b => decide (a.1 ≤ b.1))
  let prices_interp := gridR.map (fit smoothing pts)
  let dk := bl_dk calls puts current_price days_to_exp r num_points
  let g2 := npGradient (npGradient prices_interp dk) dk
  (gaussFilter1d (bl_sigma_smooth num_points)
    (g2.map (· / bl_disc r days_to_exp))).map fun x => max x 0

/-- `total = np.trapz(density, strikes_interp)`. -/
def bl_total (fit : ℝ → List (ℚ × ℝ) → ℝ → ℝ) (calls puts : Frame)
    (current_price : ℚ) (days_to_exp : ℕ) (num_points : ℕ) (smoothing : ℝ)
    (r : ℝ) : ℝ :=
  trapz (bl_clipped fit calls puts current_price days_to_exp num_points smoothing r)
    ((bl_grid calls puts current_price days_to_exp r num_points).map
      (fun q : ℚ => (q : ℝ)))

/-- The normalized density (`density / total` when `total > 0`). -/
def bl_density (fit : ℝ → List (ℚ × ℝ) → ℝ → ℝ) (calls puts : Frame)
    (current_price : ℚ) (days_to_exp : ℕ) (num_points : ℕ) (smoothing : ℝ)
    (r : ℝ) : List ℝ :=
  if 0 < bl_total fit calls puts current_price days_to_exp num_points smoothing r then
    (bl_clipped fit calls puts current_price days_to_exp num_points smoothing r).map
      (· / bl_total fit calls puts current_price days_to_exp num_points smoothing r)
  else bl_clipped fit calls puts current_price days_to_exp num_points smoothing r

/-- `cdf = np.cumsum(density) * dk` before renormalization. -/
def bl_cdf0 (fit : ℝ → List (ℚ × ℝ) → ℝ → ℝ) (calls puts : Frame)
    (current_price : ℚ) (days_to_exp : ℕ) (num_points : ℕ) (smoothing : ℝ)
    (r : ℝ) : List ℝ :=
  (cumsum (bl_density fit calls puts current_price days_to_exp num_points smoothing r)).map
    (· * bl_dk calls puts current_price days_to_exp r num_points)

/-- `cdf = cdf / cdf[-1]`.  (In Lean division by zero yields 0 where numpy
would yield NaN; the zero-total degenerate case diverges from 1 under both
semantics.) -/
def bl_cdf (fit : ℝ → List (ℚ × ℝ) → ℝ → ℝ) (calls puts : Frame)
    (current_price : ℚ) (days_to_exp : ℕ) (num_points : ℕ) (smoothing : ℝ)
    (r : ℝ) : List ℝ :=
  (bl_cdf0 fit calls puts current_price days_to_exp num_points smoothing r).map
    (· / (bl_cdf0 fit calls puts current_price days_to_exp num_points smoothing r).getLastD 0)

/-- `BreedenLitzenberger.extract_density` from `analytics.py`, assembled from
the named stages above.  `fit` is the smoothing-spline evaluator, modelled
from the spec (see `bl_clipped`). -/
def extract_density (fit : ℝ → List (ℚ × ℝ) → ℝ → ℝ) (calls puts : Frame)
    (current_price : ℚ) (days_to_exp : ℕ) (num_points : ℕ) (smoothing : ℝ)
    (r : ℝ) : Except String ImpliedDistribution :=
  if (bl_combined calls puts current_price days_to_exp r).length < 5 then
    .error "Not enough valid options data"
  else
    (get_atm_iv (clean_options calls current_price)
        (clean_options puts current_price) current_price).map fun (atm : ℚ) =>
      let gridR : List ℝ := (bl_grid calls puts current_price days_to_exp r num_points).map
        (fun q : ℚ => (q : ℝ))
      let density := bl_density fit calls puts current_price days_to_exp num_points smoothing r
      let expct := trapz (List.zipWith (fun k rho => k * rho) gridR density) gridR
      let varnc := trapz (List.zipWith (fun k rho => (k - expct) ^ 2 * rho) gridR density) gridR
      let sd := Real.sqrt (max 0 varnc)
      { strikes := gridR
        density := density
        cdf := bl_cdf fit calls puts current_price days_to_exp num_points smoothing r
        expected_price := expct
        std_dev := sd
        skewness :=
          if 0 < sd then
            trapz (List.zipWith (fun k rho => ((k - expct) / sd) ^ 3 * rho) gridR density) gridR
          else 0
        kurtosis :=
          if 0 < sd then
            trapz (List.zipWith (fun k rho => ((k - expct) / sd) ^ 4 * rho) gridR density) gridR
              - 3
          else 0
        atm_iv := (atm : ℝ)
        days_to_exp := days_to_exp }

/-! ### Claim C1: failure modes of `extract_density` -/

lemma idxminBy_foldl_some (key : Quote → ℚ) :
    ∀ (l : List Quote) (m : Quote), ∃ m2,
      l.foldl (fun acc q => match acc with
        | none => some q
        | some m => if key q < key m then some q else acc) (some m) = some m2 := by
  intro l
  induction l with
  | nil => intro m; exact ⟨m, rfl⟩
  | cons x xs ih =>
    intro m
    rw [List.foldl_cons]
    show ∃ m2, xs.foldl _ (if key x < key m then some x else some m) = some m2
    by_cases h : key x < key m
    · rw [if_pos h]; exact ih x
    · rw [if_neg h]; exact ih m

lemma get_atm_iv_cases (calls puts : List Quote) (cp : ℚ) :
    (calls = [] ∧ get_atm_iv calls puts cp
        = .error "attempt to get argmin of an empty sequence")
    ∨ (calls ≠ [] ∧ ∃ v, get_atm_iv calls puts cp = .ok v) := by
  rcases calls with _ | ⟨c, cs⟩
  · exact Or.inl ⟨rfl, rfl⟩
  · right
    refine ⟨by simp, ?_⟩
    obtain ⟨m2, hm⟩ := idxminBy_foldl_some (fun q => |q.strike - cp|) cs c
    have hidx : idxminBy (fun q => |q.strike - cp|) (c :: cs) = some m2 := by
      rw [idxminBy, List.foldl_cons]
      exact hm
    rw [get_atm_iv, hidx]
    rcases hp : idxminBy (fun q => |q.strike - cp|) puts with _ | p
    · exact ⟨_, rfl⟩
    · exact ⟨_, rfl⟩

/-- C1 (amended).  `extract_density` raises the "insufficient data" error
exactly when fewer than 5 valid combined strikes remain — in particular it
raises on exactly 4 and passes that gate on exactly 5 — and with at least 5
combined strikes it succeeds if and only if at least one call quote survives
cleaning: the one further raising step is the ATM-IV lookup (`idxmin` of an
empty series) when no calls survive.  No other step raises. -/
theorem extract_density_failure_characterization (fit : ℝ → List (ℚ × ℝ) → ℝ → ℝ)
    (calls puts : Frame) (current_price : ℚ) (days_to_exp num_points : ℕ)
    (smoothing r : ℝ) :
    (extract_density fit calls puts current_price days_to_exp num_points smoothing r
        = .error "Not enough valid options data"
      ↔ (bl_combined calls puts current_price days_to_exp r).length < 5)
    ∧ ((extract_density fit calls puts current_price days_to_exp num_points
          smoothing r).isOk = true
      ↔ 5 ≤ (bl_combined calls puts current_price days_to_exp r).length
        ∧ clean_options calls current_price ≠ []) := by
  by_cases h5 : (bl_combined calls puts current_price days_to_exp r).length < 5
  · rw [extract_density, if_pos h5]
    refine ⟨⟨fun _ => h5, fun _ => rfl⟩, ?_, ?_⟩
    · intro h
      simp [Except.isOk, Except.toBool] at h
    · rintro ⟨h, _⟩
      omega
  · rw [extract_density, if_neg h5]
    rcases get_atm_iv_cases (clean_options calls current_price)
        (clean_options puts current_price) current_price with ⟨hnil, herr⟩ | ⟨hne, v, hok⟩
    · rw [herr]
      refine ⟨⟨fun h => ?_, fun h => absurd h h5⟩, ?_, ?_⟩
      · simp only [Except.map] at h
        exact absurd (Except.error.inj h) (by decide)
      · intro h
        simp [Except.map, Except.isOk, Except.toBool] at h
      · rintro ⟨_, hcne⟩
        exact absurd hnil hcne
    · rw [hok]
      refine ⟨⟨fun h => ?_, fun h => absurd h h5⟩, fun _ => ⟨by omega, hne⟩, fun _ => ?_⟩
      · simp [Except.map] at h
      · simp [Except.map, Except.isOk, Except.toBool]

/-- A calls frame with its columns present whose single row fails the
cleaning filter (zero last price): no valid calls remain. -/
def cexCalls : Frame := ⟨true, true, [⟨100, 0, some 1, some 1, 1⟩]⟩

/-- Five valid puts at strikes 40 … 80. -/
def cexPuts : Frame :=
  ⟨true, true,
    [⟨40, 1, some 1, some 1, 1⟩, ⟨50, 1, some 1, some 1, 1⟩,
     ⟨60, 1, some 1, some 1, 1⟩, ⟨70, 1, some 1, some 1, 1⟩,
     ⟨80, 1, some 1, some 1, 1⟩]⟩

/-- Any total spline evaluator serves for the failure counterexample. -/
def cexFit : ℝ → List (ℚ × ℝ) → ℝ → ℝ := fun _ _ _ => 0

lemma cexCalls_clean : clean_options cexCalls 100 = [] := by
  have hfilter : (synthBidAsk cexCalls).filter (keepQuote 100) = [] := by
    norm_num [cexCalls, synthBidAsk, keepQuote, List.filter_cons, List.filter_nil]
  rw [clean_options, hfilter, List.mergeSort_nil]

lemma cexPuts_clean : clean_options cexPuts 100 = cexPuts.rows := by
  have hfilter : (synthBidAsk cexPuts).filter (keepQuote 100) = cexPuts.rows := by
    norm_num [cexPuts, synthBidAsk, keepQuote, List.filter_cons, List.filter_nil]
  have hsorted : List.Pairwise
      (fun a b : Quote => (decide (a.strike ≤ b.strike)) = true) cexPuts.rows := by
    norm_num [cexPuts, List.pairwise_cons]
  rw [clean_options, hfilter, List.mergeSort_of_sorted hsorted]

lemma cexCombined : bl_combined cexCalls cexPuts 100 30 0
    = [⟨40, 61⟩, ⟨50, 51⟩, ⟨60, 41⟩, ⟨70, 31⟩, ⟨80, 21⟩] := by
  have hdisc : bl_disc 0 30 = 1 := by
    rw [bl_disc, neg_zero, zero_mul, Real.exp_zero]
  rw [bl_combined, cexCalls_clean, cexPuts_clean, hdisc]
  have hmerge : mergeOuter [] cexPuts.rows
      = [⟨40, none, some 1⟩, ⟨50, none, some 1⟩, ⟨60, none, some 1⟩,
         ⟨70, none, some 1⟩, ⟨80, none, some 1⟩] := by
    norm_num [cexPuts, mergeOuter, List.filter_cons, List.filter_nil, midPrice]
  rw [combine_with_parity, hmerge]
  simp only [List.filterMap, combinedPrice, Option.bind]
  norm_num

/-- Counterexample to C1 as stated: an input with the required columns
present and 5 valid combined strikes on which `extract_density` nevertheless
raises — every call quote fails cleaning, and `_get_atm_iv` calls `idxmin`
on the empty calls series. -/
theorem extract_density_atm_counterexample :
    (bl_combined cexCalls cexPuts 100 30 0).length = 5
    ∧ (extract_density cexFit cexCalls cexPuts 100 30 200 0.1 0).isOk = false := by
  refine ⟨by rw [cexCombined]; rfl, ?_⟩
  rw [extract_density, if_neg (by rw [cexCombined]; decide), cexCalls_clean]
  rfl

/-! ### Claim C2: generic facts about the pipeline stages -/

lemma getD_range_map {α : Type} (f : ℕ → α) (d : α) (n i : ℕ) (h : i < n) :
    ((List.range n).map f).getD i d = f i := by
  have hl : i < ((List.range n).map f).length := by simpa using h
  rw [List.getD_eq_getElem _ _ hl, List.getElem_map, List.getElem_range]

lemma length_linspace (a b : ℚ) (n : ℕ) : (linspace a b n).length = n := by
  rw [linspace, List.length_map, List.length_range]

lemma length_npGradientUnit (l : List ℝ) : (npGradientUnit l).length = l.length := by
  simp [npGradientUnit]

lemma length_npGradient (l : List ℝ) (dk : ℝ) : (npGradient l dk).length = l.length := by
  simp [npGradient, length_npGradientUnit]

lemma length_gaussFilter1d (sigma : ℕ) (v : List ℝ) :
    (gaussFilter1d sigma v).length = v.length := by
  rw [gaussFilter1d, List.length_map, List.length_range]

lemma length_cumsum (l : List ℝ) : (cumsum l).length = l.length := by
  simp [cumsum]

lemma getLastD_eq_getD {α : Type} (l : List α) (d : α) (h : l ≠ []) :
    l.getLastD d = l.getD (l.length - 1) d := by
  have hlt : l.length - 1 < l.length := by
    have := List.length_pos.mpr h
    omega
  rw [List.getLastD_eq_getLast?, List.getLast?_eq_getElem?,
    List.getElem?_eq_getElem hlt, List.getD_eq_getElem _ _ hlt]
  rfl

lemma getD_nonneg {l : List ℝ} (h : ∀ x ∈ l, 0 ≤ x) (i : ℕ) : 0 ≤ l.getD i 0 := by
  by_cases hi : i < l.length
  · rw [List.getD_eq_getElem _ _ hi]
    exact h _ (List.getElem_mem hi)
  · rw [List.getD_eq_default _ _ (by omega)]

lemma headD_nonneg {l : List ℝ} (h : ∀ x ∈ l, 0 ≤ x) : 0 ≤ l.headD 0 := by
  cases l with
  | nil => simp
  | cons x xs => exact h x (by simp)

lemma getLastD_nonneg {l : List ℝ} (h : ∀ x ∈ l, 0 ≤ x) : 0 ≤ l.getLastD 0 := by
  cases hl : l with
  | nil => simp
  | cons x xs =>
    rw [← hl, getLastD_eq_getD _ _ (by simp [hl])]
    exact getD_nonneg h _

lemma sum_half_boundary_le {l : List ℝ} (h : ∀ x ∈ l, 0 ≤ x) :
    (l.headD 0 + l.getLastD 0) / 2 ≤ l.sum := by
  cases l with
  | nil => simp
  | cons x xs =>
    cases hxs : xs with
    | nil => simp [List.getLastD]
    | cons y ys =>
      rw [← hxs]
      have hlt : (x :: xs).length - 1 < (x :: xs).length := by simp
      have hmem : (x :: xs).getLastD 0 ∈ x :: xs := by
        rw [getLastD_eq_getD _ _ (by simp), List.getD_eq_getElem _ _ hlt]
        exact List.getElem_mem hlt
      have hlast_le : (x :: xs).getLastD 0 ≤ (x :: xs).sum :=
        List.single_le_sum h _ hmem
      have hhead_le : x ≤ (x :: xs).sum := List.single_le_sum h x (by simp)
      have hx0 : 0 ≤ x := h x (by simp)
      have hl0 : 0 ≤ (x :: xs).getLastD 0 := getLastD_nonneg h
      have hsum0 : 0 ≤ (x :: xs).sum := by
        rw [List.sum_cons]
        have : 0 ≤ xs.sum := List.sum_nonneg fun y hy => h y (by simp [hy])
        linarith
      rw [List.headD_cons]
      by_cases hxl : x ≤ (x :: xs).getLastD 0
      · linarith
      · linarith

lemma getD_replicate_of_lt {α : Type} (n : ℕ) (c : α) (d : α) (i : ℕ) (h : i < n) :
    (List.replicate n c).getD i d = c := by
  rw [List.getD_eq_getElem _ _ (by simpa using h), List.getElem_replicate]

lemma getD_replicate_zero (n j : ℕ) : (List.replicate n (0:ℝ)).getD j 0 = 0 := by
  by_cases h : j < n
  · exact getD_replicate_of_lt n 0 0 j h
  · exact List.getD_eq_default _ _ (by rw [List.length_replicate]; omega)

lemma npGradientUnit_replicate (n : ℕ) (c : ℝ) (h : 2 ≤ n) :
    npGradientUnit (List.replicate n c) = List.replicate n 0 := by
  rw [npGradientUnit, List.length_replicate]
  conv_rhs => rw [show List.replicate n (0:ℝ) = (List.range n).map fun _ => (0:ℝ) from
    by rw [List.map_const', List.length_range]]
  apply List.map_congr_left
  intro i hi
  rw [List.mem_range] at hi
  by_cases h0 : i = 0
  · rw [if_pos h0, getD_replicate_of_lt n c 0 1 (by omega),
      getD_replicate_of_lt n c 0 0 (by omega)]
    ring
  · rw [if_neg h0]
    by_cases hlast : i = n - 1
    · rw [if_pos hlast, getD_replicate_of_lt n c 0 _ (by omega),
        getD_replicate_of_lt n c 0 _ (by omega)]
      ring
    · rw [if_neg hlast, getD_replicate_of_lt n c 0 _ (by omega),
        getD_replicate_of_lt n c 0 _ (by omega)]
      ring

lemma npGradient_replicate (n : ℕ) (c : ℝ) (dk : ℝ) (h : 2 ≤ n) :
    npGradient (List.replicate n c) dk = List.replicate n 0 := by
  rw [npGradient, npGradientUnit_replicate n c h, List.map_replicate, zero_div]

lemma reflectIdx_lt (n : ℕ) (hn : 0 < n) (j : ℤ) : reflectIdx n j < n := by
  rw [reflectIdx]
  have hm0 : 0 ≤ j % (2 * (n : ℤ)) := Int.emod_nonneg j (by omega)
  have hmlt : j % (2 * (n : ℤ)) < 2 * (n : ℤ) := Int.emod_lt_of_pos j (by omega)
  split <;> omega

lemma gaussFilter1d_replicate (sigma n : ℕ) (c : ℝ) :
    gaussFilter1d sigma (List.replicate n c) = List.replicate n c := by
  rcases Nat.eq_zero_or_pos n with h0 | hn
  · subst h0
    simp [gaussFilter1d]
  · rw [gaussFilter1d, List.length_replicate]
    have hZ : 0 < ∑ i ∈ Finset.range (2 * (4 * sigma) + 1),
        Real.exp (-((i : ℝ) - (4 * sigma : ℕ)) ^ 2 / (2 * (sigma : ℝ) ^ 2)) :=
      Finset.sum_pos (fun i _ => Real.exp_pos _)
        (Finset.nonempty_range_iff.mpr (by omega))
    conv_rhs => rw [show List.replicate n c = (List.range n).map fun _ => c from
      by rw [List.map_const', List.length_range]]
    apply List.map_congr_left
    intro j _
    have hsum : (∑ i ∈ Finset.range (2 * (4 * sigma) + 1),
        Real.exp (-((i : ℝ) - (4 * sigma : ℕ)) ^ 2 / (2 * (sigma : ℝ) ^ 2))
          * (List.replicate n c).getD
            (reflectIdx n ((j : ℤ) + ((i : ℤ) - (4 * sigma : ℕ)))) 0)
        = (∑ i ∈ Finset.range (2 * (4 * sigma) + 1),
            Real.exp (-((i : ℝ) - (4 * sigma : ℕ)) ^ 2 / (2 * (sigma : ℝ) ^ 2))) * c := by
      rw [Finset.sum_mul]
      apply Finset.sum_congr rfl
      intro i _
      rw [getD_replicate_of_lt n c 0 _ (reflectIdx_lt n hn _)]
    rw [hsum, mul_comm, mul_div_assoc, div_self (ne_of_gt hZ), mul_one]

lemma cumsum_replicate_zero (n : ℕ) :
    cumsum (List.replicate n (0:ℝ)) = List.replicate n 0 := by
  rw [cumsum, List.length_replicate]
  conv_rhs => rw [show List.replicate n (0:ℝ) = (List.range n).map fun _ => (0:ℝ) from
    by rw [List.map_const', List.length_range]]
  apply List.map_congr_left
  intro i _
  exact Finset.sum_eq_zero fun j _ => getD_replicate_zero n j

lemma trapz_nil (xs : List ℝ) : trapz [] xs = 0 := by
  cases xs with
  | nil => rfl
  | cons x xs' => cases xs' <;> rfl

lemma trapz_single (y : ℝ) (xs : List ℝ) : trapz [y] xs = 0 := by
  cases xs with
  | nil => rfl
  | cons x xs' => cases xs' <;> rfl

lemma trapz_cons_cons (y0 y1 : ℝ) (ys : List ℝ) (x0 x1 : ℝ) (xs : List ℝ) :
    trapz (y0 :: y1 :: ys) (x0 :: x1 :: xs)
      = (x1 - x0) * (y0 + y1) / 2 + trapz (y1 :: ys) (x1 :: xs) := rfl

lemma trapz_zero : ∀ (ys : List ℝ), (∀ y ∈ ys, y = 0) → ∀ xs : List ℝ, trapz ys xs = 0 := by
  intro ys
  induction ys with
  | nil => intro _ xs; exact trapz_nil xs
  | cons y0 ys ih =>
    intro h xs
    cases ys with
    | nil => exact trapz_single y0 xs
    | cons y1 ys' =>
      cases xs with
      | nil => rfl
      | cons x0 xs' =>
        cases xs' with
        | nil => rfl
        | cons x1 xs'' =>
          rw [trapz_cons_cons, ih (fun y hy => h y (by simp [hy])) (x1 :: xs''),
            h y0 (by simp), h y1 (by simp)]
          ring

lemma trapz_uniform (h : ℝ) :
    ∀ (ys xs : List ℝ), xs.Chain' (fun a b => b - a = h) → ys.length = xs.length →
      trapz ys xs = h * (ys.sum - (ys.headD 0 + ys.getLastD 0) / 2) := by
  intro ys
  induction ys with
  | nil =>
    intro xs _ _
    rw [trapz_nil]
    simp
  | cons y0 ys ih =>
    intro xs hchain hlen
    cases ys with
    | nil =>
      rw [trapz_single]
      simp [List.getLastD]
    | cons y1 ys' =>
      cases xs with
      | nil => simp at hlen
      | cons x0 xs' =>
        cases xs' with
        | nil => simp at hlen
        | cons x1 xs'' =>
          rw [trapz_cons_cons]
          have hx : x1 - x0 = h := (List.chain'_cons.mp hchain).1
          have hchain' : (x1 :: xs'').Chain' (fun a b => b - a = h) :=
            (List.chain'_cons.mp hchain).2
          rw [ih (x1 :: xs'') hchain' (by simpa using hlen), hx]
          have hlast : (y0 :: y1 :: ys').getLastD 0 = (y1 :: ys').getLastD 0 := by
            rw [List.getLastD_eq_getLast?, List.getLastD_eq_getLast?,
              List.getLast?_cons_cons]
          rw [hlast]
          simp only [List.sum_cons, List.headD_cons]
          ring

lemma sum_map_div (l : List ℝ) (c : ℝ) : (l.map (· / c)).sum = l.sum / c := by
  induction l with
  | nil => simp
  | cons x xs ih => simp [ih, add_div]

lemma headD_map_div (l : List ℝ) (c : ℝ) :
    (l.map (· / c)).headD 0 = l.headD 0 / c := by
  cases l <;> simp

lemma getLastD_map_div (l : List ℝ) (c : ℝ) :
    (l.map (· / c)).getLastD 0 = l.getLastD 0 / c := by
  rw [List.getLastD_eq_getLast?, List.getLastD_eq_getLast?, List.getLast?_map]
  cases hl : l.getLast? <;> simp

lemma getLastD_map_mul (l : List ℝ) (c : ℝ) :
    (l.map (· * c)).getLastD 0 = l.getLastD 0 * c := by
  rw [List.getLastD_eq_getLast?, List.getLastD_eq_getLast?, List.getLast?_map]
  cases hl : l.getLast? <;> simp

lemma sum_eq_range_getD (l : List ℝ) :
    l.sum = ∑ i ∈ Finset.range l.length, l.getD i 0 := by
  have h := sum_map_eq_range_sum (fun x : ℝ => x) 0 l
  simpa using h

lemma cumsum_getLastD (l : List ℝ) (h : l ≠ []) :
    (cumsum l).getLastD 0 = l.sum := by
  have hpos : 0 < l.length := List.length_pos.mpr h
  have hne : cumsum l ≠ [] := by
    intro hc
    have hlen := length_cumsum l
    rw [hc] at hlen
    simp at hlen
    omega
  rw [getLastD_eq_getD _ _ hne, length_cumsum, cumsum,
    getD_range_map _ 0 l.length (l.length - 1) (by omega), sum_eq_range_getD,
    show l.length - 1 + 1 = l.length from by omega]

lemma cumsum_chain' (l : List ℝ) (h : ∀ x ∈ l, 0 ≤ x) :
    (cumsum l).Chain' (· ≤ ·) := by
  rw [cumsum, List.chain'_map]
  cases hn : l.length with
  | zero => simp
  | succ m =>
    rw [List.chain'_range_succ]
    intro i _
    conv_rhs => rw [Finset.sum_range_succ]
    have := getD_nonneg h (i + 1)
    linarith

lemma chain'_map_mul_right {l : List ℝ} (hl : l.Chain' (· ≤ ·)) {c : ℝ} (hc : 0 ≤ c) :
    (l.map (· * c)).Chain' (· ≤ ·) := by
  rw [List.chain'_map]
  exact hl.imp fun a b hab => mul_le_mul_of_nonneg_right hab hc

lemma chain'_map_div_pos {l : List ℝ} (hl : l.Chain' (· ≤ ·)) {c : ℝ} (hc : 0 < c) :
    (l.map (· / c)).Chain' (· ≤ ·) := by
  rw [List.chain'_map]
  exact hl.imp fun a b hab => by
    rw [div_le_div_iff_of_pos_right hc]
    exact hab

lemma linspace_getD (a b : ℚ) (n i : ℕ) (h : i < n) :
    (linspace a b n).getD i 0 = a + i * (b - a) / ((n : ℚ) - 1) := by
  rw [linspace, getD_range_map _ _ _ _ h]

lemma getD_map_ratCast (l : List ℚ) (i : ℕ) (h : i < l.length) :
    (l.map (fun q : ℚ => (q : ℝ))).getD i 0 = ((l.getD i 0 : ℚ) : ℝ) := by
  rw [List.getD_eq_getElem _ _ (by simpa using h), List.getElem_map,
    List.getD_eq_getElem _ _ h]

lemma linspace_cast_chain' (a b : ℚ) (n : ℕ) :
    ((linspace a b n).map (fun q : ℚ => (q : ℝ))).Chain'
      (fun x y => y - x = (((b - a) / ((n : ℚ) - 1) : ℚ) : ℝ)) := by
  rw [linspace, List.map_map, List.chain'_map]
  cases n with
  | zero => simp
  | succ m =>
    rw [List.chain'_range_succ]
    intro i _
    simp only [Function.comp]
    push_cast
    ring

lemma bl_dk_eq (calls puts : Frame) (current_price : ℚ) (days_to_exp : ℕ)
    (r : ℝ) (n : ℕ) (h : 2 ≤ n) :
    bl_dk calls puts current_price days_to_exp r n
      = ((bl_step calls puts current_price days_to_exp r n : ℚ) : ℝ) := by
  rw [bl_dk, bl_step, bl_grid]
  rw [getD_map_ratCast _ _ (by rw [length_linspace]; omega),
    getD_map_ratCast _ _ (by rw [length_linspace]; omega),
    linspace_getD _ _ _ _ (by omega), linspace_getD _ _ _ _ (by omega)]
  push_cast
  ring

lemma normalization_identity (S h l dk : ℝ) (hdk : dk ≠ 0) (hA : S - (h + l) / 2 ≠ 0) :
    S / (dk * (S - (h + l) / 2)) * dk
      = 1 + dk * (h / (dk * (S - (h + l) / 2)) + l / (dk * (S - (h + l) / 2))) / 2 := by
  rw [div_add_div_same, ← mul_div_assoc, mul_div_mul_left _ _ hdk,
    div_mul_eq_mul_div, mul_comm S dk, mul_div_mul_left _ _ hdk,
    div_div, ← sub_eq_iff_eq_add', div_sub_one hA,
    show S - (S - (h + l) / 2) = (h + l) / 2 from by ring,
    div_div, mul_comm (S - (h + l) / 2) 2]

/-- C2 (amended).  For every `ImpliedDistribution` returned by
`extract_density` whose clipped pre-normalization density has positive
trapezoidal mass (`bl_total > 0`): the density is everywhere non-negative,
the cdf is non-decreasing with last entry exactly 1, and the sum of
`density[i] · dk` equals 1 plus the trapezoid boundary correction
`dk·(density[0]+density[-1])/2` — the precise content of "≈ 1".  (When the
clipped density is identically zero the source instead produces a `0/0` NaN
cdf, see the counterexample.) -/
theorem extract_density_invariants
    (fit : ℝ → List (ℚ × ℝ) → ℝ → ℝ) (calls puts : Frame) (current_price : ℚ)
    (days_to_exp num_points : ℕ) (smoothing r : ℝ)
    (hn : 2 ≤ num_points)
    (hpos : 0 < bl_total fit calls puts current_price days_to_exp num_points smoothing r) :
    (∀ x ∈ bl_density fit calls puts current_price days_to_exp num_points smoothing r, 0 ≤ x)
    ∧ (bl_cdf fit calls puts current_price days_to_exp num_points smoothing r).Chain' (· ≤ ·)
    ∧ (bl_cdf fit calls puts current_price days_to_exp num_points smoothing r).getLastD 0 = 1
    ∧ (bl_density fit calls puts current_price days_to_exp num_points smoothing r).sum
        * bl_dk calls puts current_price days_to_exp r num_points
      = 1 + bl_dk calls puts current_price days_to_exp r num_points
          * ((bl_density fit calls puts current_price days_to_exp num_points
              smoothing r).headD 0
            + (bl_density fit calls puts current_price days_to_exp num_points
              smoothing r).getLastD 0) / 2
    ∧ ∀ dist : ImpliedDistribution,
        extract_density fit calls puts current_price days_to_exp num_points smoothing r
          = .ok dist →
        dist.density = bl_density fit calls puts current_price days_to_exp num_points
            smoothing r
          ∧ dist.cdf = bl_cdf fit calls puts current_price days_to_exp num_points
            smoothing r := by
  have hfields : ∀ dist : ImpliedDistribution,
      extract_density fit calls puts current_price days_to_exp num_points smoothing r
        = .ok dist →
      dist.density = bl_density fit calls puts current_price days_to_exp num_points
          smoothing r
        ∧ dist.cdf = bl_cdf fit calls puts current_price days_to_exp num_points
          smoothing r := by
    intro dist hok
    rw [extract_density] at hok
    by_cases h5 : (bl_combined calls puts current_price days_to_exp r).length < 5
    · rw [if_pos h5] at hok
      exact absurd hok (by simp)
    · rw [if_neg h5] at hok
      rcases hatm : get_atm_iv (clean_options calls current_price)
          (clean_options puts current_price) current_price with e | v
      · rw [hatm] at hok
        exact absurd hok (by simp [Except.map])
      · rw [hatm] at hok
        simp only [Except.map, Except.ok.injEq] at hok
        rw [← hok]
        exact ⟨rfl, rfl⟩
  have hdk_eq := bl_dk_eq calls puts current_price days_to_exp r num_points hn
  have hgrid_len : ((bl_grid calls puts current_price days_to_exp r num_points).map
      (fun q : ℚ => (q : ℝ))).length = num_points := by
    rw [List.length_map, bl_grid, length_linspace]
  have hgrid_chain : ((bl_grid calls puts current_price days_to_exp r num_points).map
      (fun q : ℚ => (q : ℝ))).Chain' (fun x y => y - x
        = ((bl_step calls puts current_price days_to_exp r num_points : ℚ) : ℝ)) := by
    rw [bl_grid, bl_step]
    exact linspace_cast_chain' _ _ _
  have hclip_len : (bl_clipped fit calls puts current_price days_to_exp num_points
      smoothing r).length = num_points := by
    simp only [bl_clipped, List.length_map, length_gaussFilter1d, length_npGradient,
      bl_grid, length_linspace]
  have hclip_nn : ∀ x ∈ bl_clipped fit calls puts current_price days_to_exp num_points
      smoothing r, 0 ≤ x := by
    rw [bl_clipped]
    intro x hx
    simp only [List.mem_map] at hx
    obtain ⟨y, _, rfl⟩ := hx
    exact le_max_right y 0
  have htotal_eq : bl_total fit calls puts current_price days_to_exp num_points smoothing r
      = bl_dk calls puts current_price days_to_exp r num_points
        * ((bl_clipped fit calls puts current_price days_to_exp num_points smoothing r).sum
          - ((bl_clipped fit calls puts current_price days_to_exp num_points
              smoothing r).headD 0
            + (bl_clipped fit calls puts current_price days_to_exp num_points
              smoothing r).getLastD 0) / 2) := by
    rw [bl_total, hdk_eq]
    exact trapz_uniform _ _ _ hgrid_chain (by rw [hclip_len, hgrid_len])
  have hA_nonneg : 0 ≤ (bl_clipped fit calls puts current_price days_to_exp num_points
      smoothing r).sum
      - ((bl_clipped fit calls puts current_price days_to_exp num_points
          smoothing r).headD 0
        + (bl_clipped fit calls puts current_price days_to_exp num_points
          smoothing r).getLastD 0) / 2 := by
    have := sum_half_boundary_le hclip_nn
    linarith
  have hdk_pos : 0 < bl_dk calls puts current_price days_to_exp r num_points := by
    by_contra hle
    push_neg at hle
    nlinarith [htotal_eq, hpos, hA_nonneg]
  have hA_pos : 0 < (bl_clipped fit calls puts current_price days_to_exp num_points
      smoothing r).sum
      - ((bl_clipped fit calls puts current_price days_to_exp num_points
          smoothing r).headD 0
        + (bl_clipped fit calls puts current_price days_to_exp num_points
          smoothing r).getLastD 0) / 2 := by
    nlinarith [htotal_eq, hpos, hdk_pos]
  have hsum_pos : 0 < (bl_clipped fit calls puts current_price days_to_exp num_points
      smoothing r).sum := by
    have hh := headD_nonneg hclip_nn
    have hl := getLastD_nonneg hclip_nn
    linarith
  have hden_eq : bl_density fit calls puts current_price days_to_exp num_points smoothing r
      = (bl_clipped fit calls puts current_price days_to_exp num_points smoothing r).map
        (· / bl_total fit calls puts current_price days_to_exp num_points smoothing r) := by
    rw [bl_density, if_pos hpos]
  have hden_len : (bl_density fit calls puts current_price days_to_exp num_points
      smoothing r).length = num_points := by
    rw [hden_eq, List.length_map, hclip_len]
  have hden_ne : bl_density fit calls puts current_price days_to_exp num_points smoothing r
      ≠ [] := by
    intro hcon
    rw [hcon] at hden_len
    simp at hden_len
    omega
  have hden_nn : ∀ x ∈ bl_density fit calls puts current_price days_to_exp num_points
      smoothing r, 0 ≤ x := by
    rw [hden_eq]
    intro x hx
    simp only [List.mem_map] at hx
    obtain ⟨y, hy, rfl⟩ := hx
    exact div_nonneg (hclip_nn y hy) hpos.le
  have hden_sum : (bl_density fit calls puts current_price days_to_exp num_points
      smoothing r).sum
      = (bl_clipped fit calls puts current_price days_to_exp num_points smoothing r).sum
        / bl_total fit calls puts current_price days_to_exp num_points smoothing r := by
    rw [hden_eq, sum_map_div]
  have hden_sum_pos : 0 < (bl_density fit calls puts current_price days_to_exp num_points
      smoothing r).sum := by
    rw [hden_sum]
    exact div_pos hsum_pos hpos
  have hcdf0_last : (bl_cdf0 fit calls puts current_price days_to_exp num_points
      smoothing r).getLastD 0
      = (bl_density fit calls puts current_price days_to_exp num_points smoothing r).sum
        * bl_dk calls puts current_price days_to_exp r num_points := by
    rw [bl_cdf0, getLastD_map_mul, cumsum_getLastD _ hden_ne]
  have hcdf0_last_pos : 0 < (bl_cdf0 fit calls puts current_price days_to_exp num_points
      smoothing r).getLastD 0 := by
    rw [hcdf0_last]
    exact mul_pos hden_sum_pos hdk_pos
  refine ⟨hden_nn, ?_, ?_, ?_, hfields⟩
  · rw [bl_cdf]
    apply chain'_map_div_pos _ hcdf0_last_pos
    rw [bl_cdf0]
    exact chain'_map_mul_right (cumsum_chain' _ hden_nn) hdk_pos.le
  · rw [bl_cdf, getLastD_map_div, div_self (ne_of_gt hcdf0_last_pos)]
  · have hhead : (bl_density fit calls puts current_price days_to_exp num_points
        smoothing r).headD 0
        = (bl_clipped fit calls puts current_price days_to_exp num_points
            smoothing r).headD 0
          / bl_total fit calls puts current_price days_to_exp num_points smoothing r := by
      rw [hden_eq, headD_map_div]
    have hlast : (bl_density fit calls puts current_price days_to_exp num_points
        smoothing r).getLastD 0
        = (bl_clipped fit calls puts current_price days_to_exp num_points
            smoothing r).getLastD 0
          / bl_total fit calls puts current_price days_to_exp num_points smoothing r := by
      rw [hden_eq, getLastD_map_div]
    rw [hden_sum, hhead, hlast, htotal_eq]
    exact normalization_identity _ _ _ _ (ne_of_gt hdk_pos) (ne_of_gt hA_pos)

/-- Five valid calls quoted at a constant price 10: a flat call-price curve. -/
def flatCalls : Frame :=
  ⟨true, true,
    [⟨80, 10, some 10, some 10, 1/2⟩, ⟨90, 10, some 10, some 10, 1/2⟩,
     ⟨100, 10, some 10, some 10, 1/2⟩, ⟨110, 10, some 10, some 10, 1/2⟩,
     ⟨120, 10, some 10, some 10, 1/2⟩]⟩

/-- A puts frame (columns present) whose single row fails cleaning. -/
def noPuts : Frame := ⟨true, true, [⟨100, 0, some 1, some 1, 1⟩]⟩

/-- The constant evaluator: the smoothing spline (least squares plus roughness
penalty) through five identical prices is exactly that constant. -/
def constFit : ℝ → List (ℚ × ℝ) → ℝ → ℝ := fun _ _ _ => 10

/-- A quadratic evaluator, giving the pipeline genuine curvature. -/
def quadFit : ℝ → List (ℚ × ℝ) → ℝ → ℝ := fun _ _ k => k ^ 2

lemma flatCalls_clean : clean_options flatCalls 100 = flatCalls.rows := by
  have hfilter : (synthBidAsk flatCalls).filter (keepQuote 100) = flatCalls.rows := by
    norm_num [flatCalls, synthBidAsk, keepQuote, List.filter_cons, List.filter_nil]
  have hsorted : List.Pairwise
      (fun a b : Quote => (decide (a.strike ≤ b.strike)) = true) flatCalls.rows := by
    norm_num [flatCalls, List.pairwise_cons]
  rw [clean_options, hfilter, List.mergeSort_of_sorted hsorted]

lemma noPuts_clean : clean_options noPuts 100 = [] := by
  have hfilter : (synthBidAsk noPuts).filter (keepQuote 100) = [] := by
    norm_num [noPuts, synthBidAsk, keepQuote, List.filter_cons, List.filter_nil]
  rw [clean_options, hfilter, List.mergeSort_nil]

lemma flat_combined : bl_combined flatCalls noPuts 100 30 0
    = [⟨80, 10⟩, ⟨90, 10⟩, ⟨100, 10⟩, ⟨110, 10⟩, ⟨120, 10⟩] := by
  rw [bl_combined, flatCalls_clean, noPuts_clean]
  have hmerge : mergeOuter flatCalls.rows []
      = [⟨80, some 10, none⟩, ⟨90, some 10, none⟩, ⟨100, some 10, none⟩,
         ⟨110, some 10, none⟩, ⟨120, some 10, none⟩] := by
    norm_num [flatCalls, mergeOuter, List.filter_nil, midPrice]
  rw [combine_with_parity, hmerge]
  simp only [List.filterMap, combinedPrice, Option.bind]
  norm_num

lemma flat_kmin : bl_kmin flatCalls noPuts 100 30 0 = 76 := by
  rw [bl_kmin, flat_combined]
  norm_num [List.foldl_cons, List.foldl_nil, min_def, max_def]

lemma flat_kmax : bl_kmax flatCalls noPuts 100 30 0 = 124 := by
  rw [bl_kmax, flat_combined]
  norm_num [List.foldl_cons, List.foldl_nil, min_def, max_def]

lemma flat_grid (n : ℕ) : bl_grid flatCalls noPuts 100 30 0 n = linspace 76 124 n := by
  rw [bl_grid, flat_kmin, flat_kmax]

lemma flat_atm : get_atm_iv flatCalls.rows [] 100 = .ok (1/2) := by
  have hidx : idxminBy (fun q => |q.strike - 100|) flatCalls.rows
      = some ⟨100, 10, some 10, some 10, 1/2⟩ := by
    norm_num [flatCalls, idxminBy, List.foldl_cons, List.foldl_nil, abs]
  rw [get_atm_iv, hidx]
  rfl

/-- Counterexample to C2 as stated: five valid calls at a constant price give
a spline with zero curvature, the clipped density is identically zero, the
normalization is skipped, and the stored cdf ends at 0 (`0/0`; NaN in the
source), not at ≈ 1. -/
theorem extract_density_flat_cdf_counterexample :
    ((extract_density constFit flatCalls noPuts 100 30 200 (1/10) 0).map
        fun d => d.cdf.getLastD 0) = Except.ok 0
    ∧ (0:ℝ) ≠ 1 := by
  have hlen5 : ¬(bl_combined flatCalls noPuts 100 30 0).length < 5 := by
    rw [flat_combined]
    decide
  have hclip : bl_clipped constFit flatCalls noPuts 100 30 200 (1/10) 0
      = List.replicate 200 0 := by
    rw [bl_clipped]
    have hprices : ((bl_grid flatCalls noPuts 100 30 0 200).map
          (fun q : ℚ => (q : ℝ))).map
          (constFit (1/10) (dedupByStrike ((bl_combined flatCalls noPuts 100 30 0).mergeSort
            fun a b => decide (a.1 ≤ b.1))))
        = List.replicate 200 10 := by
      rw [show constFit (1/10) (dedupByStrike ((bl_combined flatCalls noPuts
          100 30 0).mergeSort fun a b => decide (a.1 ≤ b.1))) = fun _ : ℝ => (10:ℝ) from rfl,
        List.map_const', List.length_map, flat_grid, length_linspace]
    rw [hprices, npGradient_replicate 200 10 _ (by norm_num),
      npGradient_replicate 200 0 _ (by norm_num), List.map_replicate, zero_div,
      gaussFilter1d_replicate, List.map_replicate]
    norm_num
  have htotal : bl_total constFit flatCalls noPuts 100 30 200 (1/10) 0 = 0 := by
    rw [bl_total, hclip]
    exact trapz_zero _ (fun y hy => List.eq_of_mem_replicate hy) _
  have hdensity : bl_density constFit flatCalls noPuts 100 30 200 (1/10) 0
      = List.replicate 200 0 := by
    rw [bl_density, if_neg (by rw [htotal]; norm_num), hclip]
  have hcdf0 : bl_cdf0 constFit flatCalls noPuts 100 30 200 (1/10) 0
      = List.replicate 200 0 := by
    rw [bl_cdf0, hdensity, cumsum_replicate_zero, List.map_replicate, zero_mul]
  have hcdf : bl_cdf constFit flatCalls noPuts 100 30 200 (1/10) 0
      = List.replicate 200 0 := by
    rw [bl_cdf, hcdf0, List.map_replicate, zero_div]
  refine ⟨?_, by norm_num⟩
  rw [extract_density, if_neg hlen5, flatCalls_clean, noPuts_clean, flat_atm]
  simp only [Except.map]
  rw [hcdf, getLastD_eq_getD _ _ (by simp), getD_replicate_zero]

lemma quad_grid : bl_grid flatCalls noPuts 100 30 0 3 = [76, 100, 124] := by
  rw [flat_grid]
  norm_num [linspace, List.range_succ]

lemma quad_dk : bl_dk flatCalls noPuts 100 30 0 3 = 24 := by
  rw [bl_dk, quad_grid]
  norm_num [List.getD]

lemma quad_clipped : bl_clipped quadFit flatCalls noPuts 100 30 3 (1/10) 0
    = [1, 1, 1] := by
  rw [bl_clipped, quad_dk]
  have hdisc : bl_disc 0 30 = 1 := by
    rw [bl_disc, neg_zero, zero_mul, Real.exp_zero]
  rw [hdisc, quad_grid]
  have hgridR : (([76, 100, 124] : List ℚ).map (fun q : ℚ => (q : ℝ)))
      = [(76:ℝ), 100, 124] := by
    norm_num
  rw [hgridR]
  have hprices : ([(76:ℝ), 100, 124]).map
      (quadFit (1/10) (dedupByStrike ((bl_combined flatCalls noPuts 100 30 0).mergeSort
        fun a b => decide (a.1 ≤ b.1))))
      = [5776, 10000, 15376] := by
    norm_num [quadFit]
  rw [hprices]
  have hg1 : npGradient [(5776:ℝ), 10000, 15376] 24 = [176, 200, 224] := by
    norm_num [npGradient, npGradientUnit, List.range_succ, List.getD]
  rw [hg1]
  have hg2 : npGradient [(176:ℝ), 200, 224] 24 = [1, 1, 1] := by
    norm_num [npGradient, npGradientUnit, List.range_succ, List.getD]
  rw [hg2]
  have hdiv : ([(1:ℝ), 1, 1]).map (· / 1) = List.replicate 3 1 := by
    norm_num [List.replicate]
  rw [hdiv, gaussFilter1d_replicate]
  norm_num [List.replicate]

lemma quad_total : bl_total quadFit flatCalls noPuts 100 30 3 (1/10) 0 = 48 := by
  rw [bl_total, quad_clipped, quad_grid]
  have hgridR : (([76, 100, 124] : List ℚ).map (fun q : ℚ => (q : ℝ)))
      = [(76:ℝ), 100, 124] := by
    norm_num
  rw [hgridR, trapz_cons_cons, trapz_cons_cons, trapz_single]
  norm_num

/-- Witness for C2 (amended) on the quadratic three-point instance: the mass
hypothesis holds (total = 48) and the stored cdf ends at exactly 1. -/
theorem extract_density_invariants_witness :
    ((2:ℕ) ≤ 3 ∧ 0 < bl_total quadFit flatCalls noPuts 100 30 3 (1/10) 0)
    ∧ (bl_cdf quadFit flatCalls noPuts 100 30 3 (1/10) 0).getLastD 0 = 1 :=
  ⟨⟨by norm_num, by rw [quad_total]; norm_num⟩,
   (extract_density_invariants quadFit flatCalls noPuts 100 30 3 (1/10) 0
     (by norm_num) (by rw [quad_total]; norm_num)).2.2.1⟩

end Analytics
